import Mathlib

/-!
# Verification of the airport/railway shortest-hop solver

This file embeds the two C implementations of the repository (the
fixed-capacity flat-array program and the dynamic adjacency-list program)
as Lean definitions and proves properties of them:

* the growable circular buffer (`circular_buffer_enqueue` /
  `circular_buffer_dequeue`) with its doubling growth,
* the level-marker BFS `solve`,
* the graph builders of both `main` functions, and
* the end-to-end outputs.
-/

set_option maxHeartbeats 1000000

/-- A graph: a node count and, for each node, its list of neighbours.
This is the common abstraction of both C representations: `size` is
`graph.size`, and `adj c` is the contiguous run of neighbours of city `c`
(`neighbours[start[c] .. start[c]+degrees[c])` in the flat variant,
`neighbours[c][0 .. degree[c])` in the dynamic variant). -/
structure Graph where
  size : Nat
  nbrs : List (List Nat)
deriving DecidableEq, Repr

/-- The neighbour list of city `c`. -/
def Graph.adj (g : Graph) (c : Nat) : List Nat :=
  g.nbrs.getD c []

/-- Well-formedness: one neighbour list per city, and all stored
neighbours are valid city indices. -/
def Graph.WF (g : Graph) : Prop :=
  g.nbrs.length = g.size ∧ ∀ l ∈ g.nbrs, ∀ b ∈ l, b < g.size

instance (g : Graph) : Decidable g.WF := by
  unfold Graph.WF; infer_instance

/-- Symmetry (the graph is undirected): adjacency is mutual. -/
def Graph.Symm (g : Graph) : Prop :=
  ∀ a, ∀ b, (a ∈ g.adj b ↔ b ∈ g.adj a)

/-- The state of `solve`'s BFS loop: the queue of pending entries
(cities as non-negative values, level markers as negative values), the
per-city visited flags, and the current `distance` counter. -/
structure BfsState where
  queue : List Int
  visited : List Bool
  distance : Int
deriving DecidableEq, Repr

/-- The state of `solve` just before its `while` loop: `visited` of size
`graph.size` all false (`memset` to 0), `distance = 1`, and the queue
holding only the source (`circular_buffer_enqueue(queue, from)`). -/
def initState (g : Graph) (s : Nat) : BfsState :=
  { queue := [(s : Int)], visited := List.replicate g.size false, distance := 1 }

/-- The inner neighbour loop of `solve`: for every neighbour `city` of
the dequeued head, in list order, if `!visited[city]` then enqueue it
and set `visited[city] = true`. -/
def pushNeighbours : List Nat → List Int × List Bool → List Int × List Bool
  | [], st => st
  | c :: cs, (q, v) =>
    if v.getD c false then pushNeighbours cs (q, v)
    else pushNeighbours cs (q ++ [(c : Int)], v.set c true)

/-- One-step result of the body of `solve`'s `while` loop on a dequeued
`head`: the marker branch, the destination branch, and the expansion
branch (which first enqueues the `-distance - 1` marker when
`degrees[head] > 0`, then runs the neighbour loop). -/
def solveLoop (g : Graph) (tgt : Nat) : Nat → BfsState → Option Int
  | 0, _ => none
  | fuel + 1, st =>
    match st.queue with
    | [] => some (-1)
    | head :: rest =>
      if head < 0 then
        solveLoop g tgt fuel { queue := rest, visited := st.visited, distance := -head }
      else if head = (tgt : Int) then
        some (st.distance - 1)
      else
        let q1 := if (g.adj head.toNat).length > 0 then rest ++ [-st.distance - 1] else rest
        let qv := pushNeighbours (g.adj head.toNat) (q1, st.visited)
        solveLoop g tgt fuel { queue := qv.1, visited := qv.2, distance := st.distance }

/-- Fuel that always suffices for `solveLoop` on a well-formed graph
(proved below as `solveLoop_isSome`). -/
def solveFuel (g : Graph) : Nat :=
  3 * g.size + 3

/-- `solve(from, until)` of the C sources: run the marker BFS from the
initial state.  `-1` is the `IMPOSSIBLE` sentinel. -/
def solve (g : Graph) (s t : Nat) : Int :=
  (solveLoop g t (solveFuel g) (initState g s)).getD (-1)

/-- The output line printed by `main`: the decimal result, or the
literal `Impossible` when `solve` returned the sentinel. -/
def render (r : Int) : String :=
  if r = -1 then "Impossible" else toString r

/-! ## The circular buffer (`circular_buffer_t`) -/

/-- The `circular_buffer_t` structure: a capacity, the index of the first
item, the current number of items, and the backing array. -/
structure CircularBuffer where
  capacity : Nat
  start : Nat
  size : Nat
  elements : List Int
deriving DecidableEq, Repr

/-- `make_circular_buffer`: a fresh zeroed buffer of the given capacity;
`none` models the `NULL` return for capacity 0 (allocation failures are
not modelled). -/
def make_circular_buffer (capacity : Nat) : Option CircularBuffer :=
  if capacity = 0 then none
  else some { capacity := capacity, start := 0, size := 0,
              elements := List.replicate capacity 0 }

/-- The capacity-doubling branch of `circular_buffer_enqueue`: when the
buffer is full, allocate twice the capacity and copy the backing array
twice in a row (the two `memcpy` calls). -/
def CircularBuffer.grow (b : CircularBuffer) : CircularBuffer :=
  if b.capacity = b.size then
    { capacity := b.capacity * 2, start := b.start, size := b.size,
      elements := b.elements ++ b.elements }
  else b

/-- `circular_buffer_enqueue`: grow if full, then write the element at
`(start + size) % capacity` and bump `size`. -/
def circular_buffer_enqueue (b : CircularBuffer) (element : Int) : CircularBuffer :=
  let b' := b.grow
  { b' with elements := b'.elements.set ((b'.start + b'.size) % b'.capacity) element,
            size := b'.size + 1 }

/-- `circular_buffer_dequeue`: the `size == 0` branch is the fatal
`raise(SIGSEGV)`, modelled as an error; otherwise return the item at
`start % capacity`, decrement `size` and advance `start`. -/
def circular_buffer_dequeue (b : CircularBuffer) : Except Unit (Int × CircularBuffer) :=
  if b.size = 0 then Except.error ()
  else
    let index := b.start % b.capacity
    let item := b.elements.getD index 0
    Except.ok (item, { b with size := b.size - 1, start := (b.start + 1) % b.capacity })

/-- The logical FIFO contents of the buffer, head first. -/
def CircularBuffer.toList (b : CircularBuffer) : List Int :=
  (List.range b.size).map (fun i => b.elements.getD ((b.start + i) % b.capacity) 0)

/-- Structural invariant of a live buffer. -/
def CircularBuffer.WF (b : CircularBuffer) : Prop :=
  b.elements.length = b.capacity ∧ 0 < b.capacity ∧ b.size ≤ b.capacity ∧ b.start < b.capacity

instance (b : CircularBuffer) : Decidable b.WF := by
  unfold CircularBuffer.WF; infer_instance

lemma getD_set_ne {α : Type} (l : List α) {i j : Nat} (x d : α) (h : i ≠ j) :
    (l.set i x).getD j d = l.getD j d := by
  simp [List.getD_eq_getElem?_getD, List.getElem?_set_ne h]

lemma getD_set_self {α : Type} (l : List α) {i : Nat} (x d : α) (h : i < l.length) :
    (l.set i x).getD i d = x := by
  simp [List.getD_eq_getElem?_getD, List.getElem?_set_self h]

lemma CircularBuffer.length_toList (b : CircularBuffer) : b.toList.length = b.size := by
  simp [CircularBuffer.toList]

/-- Growing preserves the logical contents: the duplicated backing array
realigns the wrapped-around segment. -/
lemma grow_spec (b : CircularBuffer) (hwf : b.WF) :
    b.grow.WF ∧ b.grow.toList = b.toList ∧ b.grow.size < b.grow.capacity ∧
      b.grow.size = b.size ∧ b.grow.start = b.grow.start := by
  obtain ⟨hlen, hpos, hsz, hst⟩ := hwf
  unfold CircularBuffer.grow
  by_cases hfull : b.capacity = b.size
  · rw [if_pos hfull]
    have hWF : ({ capacity := b.capacity * 2, start := b.start, size := b.size, elements := b.elements ++ b.elements } : CircularBuffer).WF := by
      refine ⟨?_, ?_, ?_, ?_⟩
      · show (b.elements ++ b.elements).length = b.capacity * 2
        rw [List.length_append]; omega
      · show 0 < b.capacity * 2; omega
      · show b.size ≤ b.capacity * 2; omega
      · show b.start < b.capacity * 2; omega
    have hTL : ({ capacity := b.capacity * 2, start := b.start, size := b.size, elements := b.elements ++ b.elements } : CircularBuffer).toList = b.toList := by
      show List.map _ (List.range b.size) = List.map _ (List.range b.size)
      apply List.map_congr_left
      intro i hi
      rw [List.mem_range] at hi
      show (b.elements ++ b.elements).getD ((b.start + i) % (b.capacity * 2)) 0
        = b.elements.getD ((b.start + i) % b.capacity) 0
      have hlt : b.start + i < b.capacity * 2 := by omega
      rw [Nat.mod_eq_of_lt hlt]
      by_cases hin : b.start + i < b.capacity
      · rw [List.getD_append _ _ _ _ (by omega), Nat.mod_eq_of_lt hin]
      · have h1 : b.capacity ≤ b.start + i := by omega
        rw [List.getD_append_right _ _ _ _ (by omega), hlen]
        congr 1
        rw [Nat.mod_eq_sub_mod h1, Nat.mod_eq_of_lt (by omega)]
    exact ⟨hWF, hTL, by show b.size < b.capacity * 2; omega, rfl, rfl⟩
  · rw [if_neg hfull]
    exact ⟨⟨hlen, hpos, hsz, hst⟩, rfl, by omega, rfl, rfl⟩

/-- Enqueue appends the element to the logical contents. -/
theorem toList_enqueue (b : CircularBuffer) (x : Int) (hwf : b.WF) :
    (circular_buffer_enqueue b x).toList = b.toList ++ [x] ∧
      (circular_buffer_enqueue b x).WF := by
  obtain ⟨hgwf, hgl, hroom, hgsz, -⟩ := grow_spec b hwf
  obtain ⟨hlen, hpos, hsz, hst⟩ := hgwf
  have henq : circular_buffer_enqueue b x = { capacity := b.grow.capacity, start := b.grow.start, size := b.grow.size + 1, elements := b.grow.elements.set ((b.grow.start + b.grow.size) % b.grow.capacity) x } := rfl
  have hidxlt : (b.grow.start + b.grow.size) % b.grow.capacity < b.grow.capacity :=
    Nat.mod_lt _ hpos
  rw [henq]
  constructor
  · show List.map (fun i => (b.grow.elements.set ((b.grow.start + b.grow.size) % b.grow.capacity) x).getD ((b.grow.start + i) % b.grow.capacity) 0) (List.range (b.grow.size + 1)) = b.toList ++ [x]
    rw [List.range_succ, List.map_append, List.map_singleton, ← hgl]
    congr 1
    · show List.map _ (List.range b.grow.size) = List.map _ (List.range b.grow.size)
      apply List.map_congr_left
      intro i hi
      rw [List.mem_range] at hi
      show (b.grow.elements.set ((b.grow.start + b.grow.size) % b.grow.capacity) x).getD
            ((b.grow.start + i) % b.grow.capacity) 0
        = b.grow.elements.getD ((b.grow.start + i) % b.grow.capacity) 0
      apply getD_set_ne
      intro heq
      have hmq : (b.grow.start + i) ≡ (b.grow.start + b.grow.size) [MOD b.grow.capacity] := heq.symm
      have hdvd : b.grow.capacity ∣ (b.grow.start + b.grow.size) - (b.grow.start + i) :=
        (Nat.modEq_iff_dvd' (by omega)).mp hmq
      have heq2 : b.grow.start + b.grow.size - (b.grow.start + i) = b.grow.size - i := by omega
      rw [heq2] at hdvd
      have := Nat.eq_zero_of_dvd_of_lt hdvd (by omega)
      omega
    · show [(b.grow.elements.set ((b.grow.start + b.grow.size) % b.grow.capacity) x).getD ((b.grow.start + b.grow.size) % b.grow.capacity) 0] = [x]
      rw [getD_set_self _ _ _ (by omega)]
  · refine ⟨?_, ?_, ?_, ?_⟩
    · show (b.grow.elements.set ((b.grow.start + b.grow.size) % b.grow.capacity) x).length
        = b.grow.capacity
      rw [List.length_set]; omega
    · exact hpos
    · show b.grow.size + 1 ≤ b.grow.capacity; omega
    · exact hst

/-- Dequeue returns the logical head and leaves the logical tail. -/
theorem dequeue_spec (b : CircularBuffer) (hwf : b.WF) (hs : 0 < b.size) :
    ∃ x b', circular_buffer_dequeue b = Except.ok (x, b') ∧
      b.toList = x :: b'.toList ∧ b'.WF ∧
      b'.size = b.size - 1 ∧ b'.elements = b.elements ∧ b'.capacity = b.capacity := by
  obtain ⟨hlen, hpos, hsz, hst⟩ := hwf
  refine ⟨b.elements.getD (b.start % b.capacity) 0,
    { b with size := b.size - 1, start := (b.start + 1) % b.capacity }, ?_, ?_, ?_, rfl, rfl, rfl⟩
  · unfold circular_buffer_dequeue
    rw [if_neg (by omega)]
  · obtain ⟨k, hk⟩ : ∃ k, b.size = k + 1 := ⟨b.size - 1, by omega⟩
    show List.map _ (List.range b.size) = _
    rw [hk, List.range_succ_eq_map, List.map_cons, List.map_map]
    rw [List.cons.injEq]
    constructor
    · show b.elements.getD ((b.start + 0) % b.capacity) 0
        = b.elements.getD (b.start % b.capacity) 0
      rw [Nat.add_zero]
    · show List.map _ (List.range k) = List.map _ (List.range (k + 1 - 1))
      apply List.map_congr_left
      intro i _
      show b.elements.getD ((b.start + Nat.succ i) % b.capacity) 0
        = b.elements.getD (((b.start + 1) % b.capacity + i) % b.capacity) 0
      congr 1
      rw [Nat.mod_add_mod]
      congr 1
      omega
  · refine ⟨hlen, hpos, ?_, Nat.mod_lt _ hpos⟩
    show b.size - 1 ≤ b.capacity
    omega

/-! ## FIFO behaviour under arbitrary operation sequences -/

/-- A queue operation: enqueue a value, or dequeue. -/
inductive QOp where
  | enq (x : Int)
  | deq
deriving DecidableEq, Repr

/-- Run a sequence of operations on the circular buffer, collecting the
dequeued values in order; a dequeue on an empty buffer aborts (the
`raise(SIGSEGV)` branch). -/
def runBuf : List QOp → CircularBuffer → Except Unit (List Int × CircularBuffer)
  | [], b => Except.ok ([], b)
  | QOp.enq x :: ops, b => runBuf ops (circular_buffer_enqueue b x)
  | QOp.deq :: ops, b =>
    match circular_buffer_dequeue b with
    | Except.error e => Except.error e
    | Except.ok (x, b') =>
      match runBuf ops b' with
      | Except.error e => Except.error e
      | Except.ok (outs, bf) => Except.ok (x :: outs, bf)

/-- The ideal FIFO queue: the same operations on a plain list, head at
the front. -/
def runIdeal : List QOp → List Int → Except Unit (List Int × List Int)
  | [], q => Except.ok ([], q)
  | QOp.enq x :: ops, q => runIdeal ops (q ++ [x])
  | QOp.deq :: ops, q =>
    match q with
    | [] => Except.error ()
    | x :: rest =>
      match runIdeal ops rest with
      | Except.error e => Except.error e
      | Except.ok (outs, qf) => Except.ok (x :: outs, qf)

/-- View a buffer-level run result at the ideal level. -/
def absRun : Except Unit (List Int × CircularBuffer) → Except Unit (List Int × List Int)
  | Except.error e => Except.error e
  | Except.ok (outs, b) => Except.ok (outs, b.toList)

lemma toList_eq_nil_iff (b : CircularBuffer) : b.toList = [] ↔ b.size = 0 := by
  constructor
  · intro h
    have := b.length_toList
    rw [h] at this
    simpa using this.symm
  · intro h
    have := b.length_toList
    rw [h] at this
    exact List.eq_nil_of_length_eq_zero this

/-- Any sequence of enqueues and dequeues behaves on the circular buffer
exactly as on an ideal FIFO list: dequeues return the same values in the
same order (and fail in the same places), across any number of
capacity-doubling growth events. -/
theorem claim_C8_buffer_strict_fifo (ops : List QOp) (b : CircularBuffer) (hwf : b.WF) :
    absRun (runBuf ops b) = runIdeal ops b.toList := by
  induction ops generalizing b with
  | nil => rfl
  | cons op ops ih =>
    cases op with
    | enq x =>
      obtain ⟨hTL, hWF⟩ := toList_enqueue b x hwf
      show absRun (runBuf ops (circular_buffer_enqueue b x)) = runIdeal ops (b.toList ++ [x])
      rw [← hTL]
      exact ih _ hWF
    | deq =>
      by_cases hs : b.size = 0
      · have hnil : b.toList = [] := (toList_eq_nil_iff b).mpr hs
        have hdq : circular_buffer_dequeue b = Except.error () := by
          unfold circular_buffer_dequeue
          rw [if_pos hs]
        show absRun (match circular_buffer_dequeue b with
          | Except.error e => Except.error e
          | Except.ok (x, b') =>
            match runBuf ops b' with
            | Except.error e => Except.error e
            | Except.ok (outs, bf) => Except.ok (x :: outs, bf)) = _
        rw [hdq, hnil]
        rfl
      · obtain ⟨x, b', hdq, htl, hwf', -, -, -⟩ := dequeue_spec b hwf (by omega)
        show absRun (match circular_buffer_dequeue b with
          | Except.error e => Except.error e
          | Except.ok (x, b') =>
            match runBuf ops b' with
            | Except.error e => Except.error e
            | Except.ok (outs, bf) => Except.ok (x :: outs, bf)) = _
        rw [hdq, htl]
        have hih := ih b' hwf'
        show absRun (match runBuf ops b' with
          | Except.error e => Except.error e
          | Except.ok (outs, bf) => Except.ok (x :: outs, bf))
          = (match runIdeal ops b'.toList with
            | Except.error e => Except.error e
            | Except.ok (outs, qf) => Except.ok (x :: outs, qf))
        rw [← hih]
        cases hrb : runBuf ops b' with
        | error e => rfl
        | ok p =>
          obtain ⟨outs, bf⟩ := p
          rfl

/-! ## `solve` running on the real circular buffer -/

/-- The neighbour loop of `solve`, operating on the circular buffer. -/
def pushNeighboursB : List Nat → CircularBuffer × List Bool → CircularBuffer × List Bool
  | [], st => st
  | c :: cs, (q, v) =>
    if v.getD c false then pushNeighboursB cs (q, v)
    else pushNeighboursB cs (circular_buffer_enqueue q (c : Int), v.set c true)

/-- `solve`'s `while` loop exactly as written in C: the guard
`queue->size > 0` precedes every `circular_buffer_dequeue`, whose fatal
empty-buffer branch is surfaced as `Except.error`. -/
def solveLoopB (g : Graph) (tgt : Nat) :
    Nat → CircularBuffer → List Bool → Int → Except Unit (Option Int)
  | 0, _, _, _ => Except.ok none
  | fuel + 1, q, v, dist =>
    if q.size > 0 then
      match circular_buffer_dequeue q with
      | Except.error e => Except.error e
      | Except.ok (head, q') =>
        if head < 0 then solveLoopB g tgt fuel q' v (-head)
        else if head = (tgt : Int) then Except.ok (some (dist - 1))
        else
          let q1 := if (g.adj head.toNat).length > 0
                    then circular_buffer_enqueue q' (-dist - 1) else q'
          let qv := pushNeighboursB (g.adj head.toNat) (q1, v)
          solveLoopB g tgt fuel qv.1 qv.2 dist
    else Except.ok (some (-1))

/-- `solve(from, until)` on the real buffer: allocate the
`DEFAULT_CAPACITY = 128` queue, enqueue the source, run the loop. -/
def solveB (g : Graph) (s t : Nat) : Except Unit (Option Int) :=
  match make_circular_buffer 128 with
  | none => Except.ok (some (-1))
  | some q0 =>
    solveLoopB g t (solveFuel g) (circular_buffer_enqueue q0 (s : Int))
      (List.replicate g.size false) 1

/-- The loop never reaches the fatal branch: every `circular_buffer_dequeue`
inside `solve` is guarded by `queue->size > 0`. -/
lemma solveLoopB_ok (g : Graph) (tgt : Nat) :
    ∀ fuel q v dist, ∃ r, solveLoopB g tgt fuel q v dist = Except.ok r := by
  intro fuel
  induction fuel with
  | zero => exact fun q v dist => ⟨none, rfl⟩
  | succ n ih =>
    intro q v dist
    show ∃ r, (if q.size > 0 then
      match circular_buffer_dequeue q with
      | Except.error e => Except.error e
      | Except.ok (head, q') =>
        if head < 0 then solveLoopB g tgt n q' v (-head)
        else if head = (tgt : Int) then Except.ok (some (dist - 1))
        else
          let q1 := if (g.adj head.toNat).length > 0
                    then circular_buffer_enqueue q' (-dist - 1) else q'
          let qv := pushNeighboursB (g.adj head.toNat) (q1, v)
          solveLoopB g tgt n qv.1 qv.2 dist
      else Except.ok (some (-1))) = Except.ok r
    by_cases hq : q.size > 0
    · rw [if_pos hq]
      have hdq : circular_buffer_dequeue q
          = Except.ok (q.elements.getD (q.start % q.capacity) 0,
              { q with size := q.size - 1, start := (q.start + 1) % q.capacity }) := by
        unfold circular_buffer_dequeue
        rw [if_neg (by omega)]
      rw [hdq]
      dsimp only
      by_cases hneg : (q.elements.getD (q.start % q.capacity) 0) < 0
      · rw [if_pos hneg]; exact ih _ _ _
      · rw [if_neg hneg]
        by_cases htgt : q.elements.getD (q.start % q.capacity) 0 = (tgt : Int)
        · rw [if_pos htgt]; exact ⟨_, rfl⟩
        · rw [if_neg htgt]; exact ih _ _ _
    · rw [if_neg hq]; exact ⟨_, rfl⟩

lemma pushNeighboursB_sim (cs : List Nat) :
    ∀ (q : CircularBuffer) (v : List Bool), q.WF →
    (pushNeighboursB cs (q, v)).1.toList = (pushNeighbours cs (q.toList, v)).1 ∧
    (pushNeighboursB cs (q, v)).2 = (pushNeighbours cs (q.toList, v)).2 ∧
    (pushNeighboursB cs (q, v)).1.WF := by
  induction cs with
  | nil => exact fun q v hwf => ⟨rfl, rfl, hwf⟩
  | cons c cs ih =>
    intro q v hwf
    simp only [pushNeighboursB, pushNeighbours]
    by_cases hv : v.getD c false
    · simp only [hv, if_true]
      exact ih q v hwf
    · simp only [hv, if_false]
      obtain ⟨hTL, hWF⟩ := toList_enqueue q (c : Int) hwf
      rw [← hTL]
      exact ih _ _ hWF

lemma solveLoopB_sim (g : Graph) (tgt : Nat) :
    ∀ fuel q v dist, q.WF →
    solveLoopB g tgt fuel q v dist
      = Except.ok (solveLoop g tgt fuel { queue := q.toList, visited := v, distance := dist }) := by
  intro fuel
  induction fuel with
  | zero => intro q v dist _; rfl
  | succ n ih =>
    intro q v dist hwf
    by_cases hq : q.size > 0
    · obtain ⟨x, q', hdq, htl, hwf', -, -, -⟩ := dequeue_spec q hwf (by omega)
      show (if q.size > 0 then
        match circular_buffer_dequeue q with
        | Except.error e => Except.error e
        | Except.ok (head, q') =>
          if head < 0 then solveLoopB g tgt n q' v (-head)
          else if head = (tgt : Int) then Except.ok (some (dist - 1))
          else
            let q1 := if (g.adj head.toNat).length > 0
                      then circular_buffer_enqueue q' (-dist - 1) else q'
            let qv := pushNeighboursB (g.adj head.toNat) (q1, v)
            solveLoopB g tgt n qv.1 qv.2 dist
        else Except.ok (some (-1))) = _
      rw [if_pos hq, hdq, htl]
      show _ = Except.ok (match ({ queue := x :: q'.toList, visited := v, distance := dist } : BfsState).queue with
        | [] => some (-1)
        | head :: rest =>
          if head < 0 then
            solveLoop g tgt n { queue := rest, visited := v, distance := -head }
          else if head = (tgt : Int) then some (dist - 1)
          else
            let q1 := if (g.adj head.toNat).length > 0 then rest ++ [-dist - 1] else rest
            let qv := pushNeighbours (g.adj head.toNat) (q1, v)
            solveLoop g tgt n { queue := qv.1, visited := qv.2, distance := dist })
      dsimp only
      by_cases hneg : x < 0
      · rw [if_pos hneg, if_pos hneg]
        exact ih q' v (-x) hwf'
      · rw [if_neg hneg, if_neg hneg]
        by_cases htgt : x = (tgt : Int)
        · rw [if_pos htgt, if_pos htgt]
        · rw [if_neg htgt, if_neg htgt]
          have hq1 : ((if (g.adj x.toNat).length > 0
              then circular_buffer_enqueue q' (-dist - 1) else q').toList
              = (if (g.adj x.toNat).length > 0 then q'.toList ++ [-dist - 1] else q'.toList)) ∧
              (if (g.adj x.toNat).length > 0
              then circular_buffer_enqueue q' (-dist - 1) else q').WF := by
            by_cases hdeg : (g.adj x.toNat).length > 0
            · rw [if_pos hdeg, if_pos hdeg]
              exact ⟨(toList_enqueue q' (-dist - 1) hwf').1, (toList_enqueue q' (-dist - 1) hwf').2⟩
            · rw [if_neg hdeg, if_neg hdeg]
              exact ⟨rfl, hwf'⟩
          obtain ⟨hps1, hps2, hpswf⟩ := pushNeighboursB_sim (g.adj x.toNat) _ v hq1.2
          rw [ih _ _ dist hpswf, hps2, hps1, hq1.1]
    · have hnil : q.toList = [] := (toList_eq_nil_iff q).mpr (by omega)
      show (if q.size > 0 then
        match circular_buffer_dequeue q with
        | Except.error e => Except.error e
        | Except.ok (head, q') =>
          if head < 0 then solveLoopB g tgt n q' v (-head)
          else if head = (tgt : Int) then Except.ok (some (dist - 1))
          else
            let q1 := if (g.adj head.toNat).length > 0
                      then circular_buffer_enqueue q' (-dist - 1) else q'
            let qv := pushNeighboursB (g.adj head.toNat) (q1, v)
            solveLoopB g tgt n qv.1 qv.2 dist
        else Except.ok (some (-1))) = _
      rw [if_neg hq, hnil]
      rfl

/-- The buffer-level `solve` agrees with the list-level model. -/
lemma solveB_eq (g : Graph) (s t : Nat) :
    solveB g s t = Except.ok (solveLoop g t (solveFuel g) (initState g s)) := by
  have hfresh : ({ capacity := 128, start := 0, size := 0, elements := List.replicate 128 0 } : CircularBuffer).WF := by
    refine ⟨?_, ?_, ?_, ?_⟩ <;> simp
  obtain ⟨hTL, hWF⟩ :=
    toList_enqueue { capacity := 128, start := 0, size := 0, elements := List.replicate 128 0 }
      (s : Int) hfresh
  show solveLoopB g t (solveFuel g)
      (circular_buffer_enqueue { capacity := 128, start := 0, size := 0, elements := List.replicate 128 0 } (s : Int))
      (List.replicate g.size false) 1 = _
  rw [solveLoopB_sim g t (solveFuel g) _ _ 1 hWF, hTL]
  rfl

/-! ## The graph builders of the two `main` functions -/

/-- `degrees[i]++`. -/
def bump (d : List Nat) (i : Nat) : List Nat :=
  d.set i (d.getD i 0 + 1)

/-- The degree-counting pass of the flat-array `main`: per airport,
`degrees[0]++` and `degrees[city]++`; per route `(a,b)`, `degrees[a]++`
and `degrees[b]++`.  The array has `n + 2` counters (`0` is the hub). -/
def degreesPass (n : Nat) (airports : List Nat) (edges : List (Nat × Nat)) : List Nat :=
  let d0 := List.replicate (n + 2) 0
  let d1 := airports.foldl (fun d city => bump (bump d 0) city) d0
  edges.foldl (fun d e => bump (bump d e.1) e.2) d1

/-- The offset pass: `start[i]` is the running sum of the degrees before
`i` (after which the C code resets the degree counters to zero). -/
def offsets (d : List Nat) : List Nat :=
  (List.range d.length).map (fun i => (d.take i).sum)

/-- One insertion step of the second pass: the C code computes
`from_index = start[a] + degrees[a]` and `to_index = start[b] + degrees[b]`
from the state before either write, then stores `b` at `from_index` and
`a` at `to_index`, then increments both cursors. -/
def addPair (start : List Nat) (st : List Nat × List Nat) (a b : Nat) : List Nat × List Nat :=
  let ia := start.getD a 0 + st.2.getD a 0
  let ib := start.getD b 0 + st.2.getD b 0
  ((st.1.set ia b).set ib a, bump (bump st.2 a) b)

/-- The flat-array graph of `main`: count degrees, prefix-sum the
offsets, then install the routes followed by the airport–hub links
(hub = city `0`, real cities keep their 1-indexed identifiers).
`adj c` is the slice `neighbours[start[c] .. start[c]+degrees[c])`. -/
def buildMainC (n : Nat) (airports : List Nat) (edges : List (Nat × Nat)) : Graph :=
  let deg := degreesPass n airports edges
  let start := offsets deg
  let st0 := (List.replicate deg.sum 0, List.replicate (n + 2) 0)
  let st1 := edges.foldl (fun st e => addPair start st e.1 e.2) st0
  let st2 := airports.foldl (fun st a => addPair start st 0 a) st1
  { size := n + 1,
    nbrs := (List.range (n + 1)).map
      (fun c => (st2.1.drop (start.getD c 0)).take (st2.2.getD c 0)) }

/-- `graph_add_railway` of the dynamic-list variant: append each endpoint
to the other's neighbour list.  (The C arrays with their degree counters
behave exactly like list appends for the distinct endpoints that valid
routes have.) -/
def graph_add_railway (nb : List (List Nat)) (a b : Nat) : List (List Nat) :=
  let nb1 := nb.set a (nb.getD a [] ++ [b])
  nb1.set b (nb1.getD b [] ++ [a])

/-- The dynamic-list graph of the second `main`: `make_graph(n + 1)` with
hub = city `n`, airports added first via `graph_add_airport` (a railway
from `city - 1` to `size - 1`), then the routes with both endpoints
shifted down by one. -/
def buildPart000 (n : Nat) (airports : List Nat) (edges : List (Nat × Nat)) : Graph :=
  let nb0 : List (List Nat) := List.replicate (n + 1) []
  let nb1 := airports.foldl (fun nb city => graph_add_railway nb (city - 1) n) nb0
  let nb2 := edges.foldl (fun nb e => graph_add_railway nb (e.1 - 1) (e.2 - 1)) nb1
  { size := n + 1, nbrs := nb2 }

/-- The full flat-array program on an already-scanned input: `airports`
holds the `K` airport cities and `edges` the `M` routes, all 1-indexed;
`main` passes `s` and `t` to `solve` unshifted. -/
def mainC (n s t : Nat) (airports : List Nat) (edges : List (Nat × Nat)) : String :=
  render (solve (buildMainC n airports edges) s t)

/-- The full dynamic-list program on the same input: every city identifier
is shifted down by one before use. -/
def mainD (n s t : Nat) (airports : List Nat) (edges : List (Nat × Nat)) : String :=
  render (solve (buildPart000 n airports edges) (s - 1) (t - 1))

/-! ## Easy claims -/

/-- Unfolding equation of one loop iteration. -/
lemma solveLoop_succ (g : Graph) (tgt fuel : Nat) (st : BfsState) :
    solveLoop g tgt (fuel + 1) st =
      match st.queue with
      | [] => some (-1)
      | head :: rest =>
        if head < 0 then
          solveLoop g tgt fuel { queue := rest, visited := st.visited, distance := -head }
        else if head = (tgt : Int) then
          some (st.distance - 1)
        else
          let q1 := if (g.adj head.toNat).length > 0 then rest ++ [-st.distance - 1] else rest
          let qv := pushNeighbours (g.adj head.toNat) (q1, st.visited)
          solveLoop g tgt fuel { queue := qv.1, visited := qv.2, distance := st.distance } := rfl

/-- C5: for every graph and every city `x`, `solve(g, x, x) = 0`: the very
first dequeue returns the source, which equals the destination, so the
loop exits with `distance - 1 = 0`, even when `x` has no edges at all. -/
theorem claim_C5_self_distance_zero (g : Graph) (x : Nat) : solve g x x = 0 := by
  have h : solveFuel g = 3 * g.size + 2 + 1 := rfl
  unfold solve
  rw [h, solveLoop_succ]
  dsimp only [initState]
  rw [if_neg (by omega), if_pos rfl]
  rfl

/-- C4 counterexample: immediately after `solve`'s initialization the
source's visited flag is NOT true — the code only `memset`s the array to
zero and never marks the source.  Concretely, for the 2-city graph with
no edges and source 1, the claimed description (queue `[1]`, distance 1,
`visited[1] = true`, `visited[0] = false`) is false. -/
theorem claim_C4_counterexample :
    ¬ ((initState { size := 2, nbrs := [[], []] } 1).queue = [1] ∧
       (initState { size := 2, nbrs := [[], []] } 1).distance = 1 ∧
       (initState { size := 2, nbrs := [[], []] } 1).visited.getD 1 false = true ∧
       (initState { size := 2, nbrs := [[], []] } 1).visited.getD 0 false = false) := by
  decide

/-- C4 (amended): immediately after `solve`'s initialization, EVERY
city's visited flag is false — including the source's — while `distance`
is 1 and the queue holds exactly the source. -/
theorem claim_C4_init_state (g : Graph) (s : Nat) :
    (initState g s).queue = [(s : Int)] ∧ (initState g s).distance = 1 ∧
      ∀ c, (initState g s).visited.getD c false = false := by
  refine ⟨rfl, rfl, fun c => ?_⟩
  show (List.replicate g.size false).getD c false = false
  rw [List.getD_eq_getElem?_getD, List.getElem?_replicate]
  by_cases h : c < g.size
  · rw [if_pos h]; rfl
  · rw [if_neg h]; rfl

/-- C9: in every execution of `solve`, `circular_buffer_dequeue` is only
invoked under the loop guard `queue->size > 0`, so the fatal
empty-dequeue branch (`raise(SIGSEGV)`) is unreachable: the buffer-level
loop — and `solve` run on the real buffer — never surfaces the error. -/
theorem claim_C9_empty_dequeue_unreachable :
    (∀ (g : Graph) (tgt fuel : Nat) (q : CircularBuffer) (v : List Bool) (dist : Int),
        solveLoopB g tgt fuel q v dist ≠ Except.error ()) ∧
    (∀ (g : Graph) (s t : Nat), solveB g s t ≠ Except.error ()) := by
  constructor
  · intro g tgt fuel q v dist h
    obtain ⟨r, hr⟩ := solveLoopB_ok g tgt fuel q v dist
    rw [hr] at h
    exact Except.noConfusion h
  · intro g s t h
    rw [solveB_eq] at h
    exact Except.noConfusion h

/-- C7: when the queue empties without the destination having been
dequeued, the loop returns the `IMPOSSIBLE` sentinel and the program
prints `Impossible`; in particular both programs print `Impossible` for
N=2, no routes, no airports, S=1, T=2. -/
theorem claim_C7_impossible_on_empty_queue :
    (∀ (g : Graph) (tgt fuel : Nat) (v : List Bool) (d : Int),
        solveLoop g tgt (fuel + 1) { queue := [], visited := v, distance := d } = some (-1)) ∧
    mainC 2 1 2 [] [] = "Impossible" ∧ mainD 2 1 2 [] [] = "Impossible" :=
  ⟨fun _ _ _ _ _ => rfl, by decide, by decide⟩

/-- C1 counterexample: for N=3, M=0, K=2 airports at cities 1 and 2,
S=1, T=2, neither program prints `1`. -/
theorem claim_C1_counterexample :
    ¬ (mainC 3 1 2 [1, 2] [] = "1" ∨ mainD 3 1 2 [1, 2] [] = "1") := by
  decide

/-- C1 (amended): for that input both programs print `2` — the
airport-to-airport trip costs 2 edges in the hub-augmented graph, and
`solve`'s `distance - 1` only compensates the pre-incremented level
counter; no hub hop is subtracted from the reported distance. -/
theorem claim_C1_prints_two :
    mainC 3 1 2 [1, 2] [] = "2" ∧ mainD 3 1 2 [1, 2] [] = "2" := by
  constructor <;> decide

/-! ## Marker-enqueue instrumentation (C3) -/

/-- Instrumented run of `solve`'s loop: for each iteration that expands a
(non-marker, non-destination) city with at least one neighbour, record the
enqueued marker value together with whether that iteration actually
enqueued at least one (previously unvisited) neighbour city. -/
def markerEvents (g : Graph) (tgt : Nat) : Nat → BfsState → List (Int × Bool)
  | 0, _ => []
  | fuel + 1, st =>
    match st.queue with
    | [] => []
    | head :: rest =>
      if head < 0 then
        markerEvents g tgt fuel { queue := rest, visited := st.visited, distance := -head }
      else if head = (tgt : Int) then []
      else
        let q1 := if (g.adj head.toNat).length > 0 then rest ++ [-st.distance - 1] else rest
        let qv := pushNeighbours (g.adj head.toNat) (q1, st.visited)
        let ev : List (Int × Bool) :=
          if (g.adj head.toNat).length > 0
          then [(-st.distance - 1, decide (qv.1.length > q1.length))]
          else []
        ev ++ markerEvents g tgt fuel { queue := qv.1, visited := qv.2, distance := st.distance }

/-- The number of loop iterations that expand a non-marker,
non-destination city with at least one neighbour. -/
def cityExpansions (g : Graph) (tgt : Nat) : Nat → BfsState → Nat
  | 0, _ => 0
  | fuel + 1, st =>
    match st.queue with
    | [] => 0
    | head :: rest =>
      if head < 0 then
        cityExpansions g tgt fuel { queue := rest, visited := st.visited, distance := -head }
      else if head = (tgt : Int) then 0
      else
        let q1 := if (g.adj head.toNat).length > 0 then rest ++ [-st.distance - 1] else rest
        let qv := pushNeighbours (g.adj head.toNat) (q1, st.visited)
        (if (g.adj head.toNat).length > 0 then 1 else 0)
          + cityExpansions g tgt fuel { queue := qv.1, visited := qv.2, distance := st.distance }

/-- The triangle on cities 0,1,2 with the isolated city 3. -/
def gTriangle : Graph := { size := 4, nbrs := [[1, 2], [0, 2], [0, 1], []] }

/-- C3 counterexample: running `solve` on the triangle graph from city 0
towards the unreachable city 3, the level marker `-3` is enqueued twice
for the single distance-2 frontier (cities 1 and 2 each enqueue one), the
`-3` marker is enqueued a second time by an iteration that enqueued no
city at all, and the final marker `-4` is enqueued although the next
frontier is empty (the run ends `Impossible` right after).  So a marker
is neither enqueued exactly once per frontier-with-children nor only when
the next frontier is non-empty. -/
theorem claim_C3_counterexample :
    markerEvents gTriangle 3 (solveFuel gTriangle) (initState gTriangle 0)
      = [(-2, true), (-3, true), (-3, false), (-4, false)] ∧
    ¬ ((markerEvents gTriangle 3 (solveFuel gTriangle) (initState gTriangle 0)).map
        Prod.fst).Nodup ∧
    solve gTriangle 0 3 = -1 := by
  refine ⟨by decide, by decide, by decide⟩

/-- C3 (amended): in every run of `solve`, a level marker for
`distance + 1` is enqueued exactly once per dequeued non-marker,
non-destination city that has at least one neighbour — hence possibly
several times for the same frontier, and also when every neighbour of the
dequeued city is already visited. -/
theorem claim_C3_one_marker_per_expanded_city (g : Graph) (tgt : Nat) :
    ∀ fuel st, (markerEvents g tgt fuel st).length = cityExpansions g tgt fuel st := by
  intro fuel
  induction fuel with
  | zero => intro st; rfl
  | succ n ih =>
    intro st
    obtain ⟨q, v, d⟩ := st
    cases q with
    | nil => rfl
    | cons head rest =>
      show (markerEvents g tgt (n + 1) { queue := head :: rest, visited := v, distance := d }).length
        = cityExpansions g tgt (n + 1) { queue := head :: rest, visited := v, distance := d }
      rw [markerEvents, cityExpansions]
      dsimp only
      by_cases hneg : head < 0
      · rw [if_pos hneg, if_pos hneg]
        exact ih _
      · rw [if_neg hneg, if_neg hneg]
        by_cases htgt : head = (tgt : Int)
        · rw [if_pos htgt, if_pos htgt]; rfl
        · rw [if_neg htgt, if_neg htgt]
          by_cases hdeg : (g.adj head.toNat).length > 0
          · simp only [if_pos hdeg, List.length_append, List.length_singleton, ih _]
          · simp only [if_neg hdeg, List.nil_append, ih _, Nat.zero_add]

/-! ## Distance monotonicity and marker ordering (C10) -/

/-- The decoded (negated) values of the level markers of a queue, in FIFO
order. -/
def markersOf (q : List Int) : List Int :=
  (q.filter (fun z => decide (z < 0))).map (fun z => -z)

lemma markersOf_cons_neg {head : Int} (h : head < 0) (rest : List Int) :
    markersOf (head :: rest) = -head :: markersOf rest := by
  simp [markersOf, List.filter_cons, h]

lemma markersOf_cons_nonneg {head : Int} (h : ¬ head < 0) (rest : List Int) :
    markersOf (head :: rest) = markersOf rest := by
  simp [markersOf, List.filter_cons, h]

lemma markersOf_append (q r : List Int) :
    markersOf (q ++ r) = markersOf q ++ markersOf r := by
  simp [markersOf, List.filter_append]

lemma pushNeighbours_markers (cs : List Nat) : ∀ (q : List Int) (v : List Bool),
    markersOf (pushNeighbours cs (q, v)).1 = markersOf q := by
  induction cs with
  | nil => intro q v; rfl
  | cons c cs ih =>
    intro q v
    show markersOf (pushNeighbours (c :: cs) (q, v)).1 = _
    rw [pushNeighbours]
    by_cases hv : v.getD c false
    · rw [if_pos hv]; exact ih q v
    · rw [if_neg hv, ih _ _, markersOf_append]
      have hc : ¬ ((c : Int) < 0) := by omega
      rw [markersOf_cons_nonneg hc]
      show markersOf q ++ markersOf [] = markersOf q
      have hmnil : markersOf ([] : List Int) = [] := rfl
      rw [hmnil, List.append_nil]

/-- The queue/marker invariant of `solve`'s loop: the current distance
followed by the queue's decoded markers is a non-decreasing chain, every
marker decodes to at most `distance + 1`, and the distance is positive. -/
def MInv (st : BfsState) : Prop :=
  List.Chain' (· ≤ ·) (st.distance :: markersOf st.queue) ∧
    (∀ m ∈ markersOf st.queue, m ≤ st.distance + 1) ∧ 1 ≤ st.distance

/-- The list of states at the start of each executed loop iteration
(including the final state at which the loop returns). -/
def stateTrace (g : Graph) (tgt : Nat) : Nat → BfsState → List BfsState
  | 0, _ => []
  | fuel + 1, st =>
    match st.queue with
    | [] => [st]
    | head :: rest =>
      if head < 0 then
        st :: stateTrace g tgt fuel { queue := rest, visited := st.visited, distance := -head }
      else if head = (tgt : Int) then [st]
      else
        let q1 := if (g.adj head.toNat).length > 0 then rest ++ [-st.distance - 1] else rest
        let qv := pushNeighbours (g.adj head.toNat) (q1, st.visited)
        st :: stateTrace g tgt fuel { queue := qv.1, visited := qv.2, distance := st.distance }

lemma stateTrace_first (g : Graph) (tgt : Nat) (fuel : Nat) (st : BfsState) :
    stateTrace g tgt fuel st = [] ∨ ∃ l, stateTrace g tgt fuel st = st :: l := by
  cases fuel with
  | zero => exact Or.inl rfl
  | succ n =>
    obtain ⟨q, v, d⟩ := st
    cases q with
    | nil => exact Or.inr ⟨[], rfl⟩
    | cons head rest =>
      rw [stateTrace]
      dsimp only
      by_cases hneg : head < 0
      · rw [if_pos hneg]; exact Or.inr ⟨_, rfl⟩
      · rw [if_neg hneg]
        by_cases htgt : head = (tgt : Int)
        · rw [if_pos htgt]; exact Or.inr ⟨[], rfl⟩
        · rw [if_neg htgt]; exact Or.inr ⟨_, rfl⟩

lemma stateTrace_chain (g : Graph) (tgt : Nat) :
    ∀ fuel (st : BfsState), MInv st →
      (∀ st' ∈ stateTrace g tgt fuel st, MInv st') ∧
      List.Chain' (· ≤ ·) ((stateTrace g tgt fuel st).map BfsState.distance) := by
  intro fuel
  induction fuel with
  | zero =>
    intro st _
    exact ⟨fun st' h => absurd h (List.not_mem_nil st'), List.chain'_nil⟩
  | succ n ih =>
    intro st hinv
    obtain ⟨q, v, d⟩ := st
    have hstInv : MInv { queue := q, visited := v, distance := d } := hinv
    obtain ⟨hchain, hbound, hdpos⟩ := hinv
    dsimp only at hchain hbound hdpos
    cases q with
    | nil =>
      have htr : stateTrace g tgt (n + 1) { queue := [], visited := v, distance := d }
          = [{ queue := [], visited := v, distance := d }] := rfl
      rw [htr]
      refine ⟨?_, List.chain'_singleton _⟩
      intro st' h
      rw [List.mem_singleton] at h
      exact h ▸ hstInv
    | cons head rest =>
      rw [stateTrace]
      dsimp only
      by_cases hneg : head < 0
      · -- marker dequeue
        rw [if_pos hneg]
        rw [markersOf_cons_neg hneg] at hchain hbound
        have hd : d ≤ -head := (List.chain'_cons.mp hchain).1
        have hinv' : MInv { queue := rest, visited := v, distance := -head } := by
          refine ⟨?_, ?_, ?_⟩
          · show List.Chain' (· ≤ ·) (-head :: markersOf rest)
            exact (List.chain'_cons.mp hchain).2
          · show ∀ m ∈ markersOf rest, m ≤ -head + 1
            intro m hm
            have := hbound m (List.mem_cons_of_mem _ hm)
            omega
          · show (1 : Int) ≤ -head
            omega
        obtain ⟨hall, htr⟩ := ih _ hinv'
        refine ⟨?_, ?_⟩
        · intro st' h
          rcases List.mem_cons.mp h with h | h
          · exact h ▸ hstInv
          · exact hall st' h
        · rw [List.map_cons]
          rcases stateTrace_first g tgt n { queue := rest, visited := v, distance := -head } with
            hemp | ⟨l, hl⟩
          · rw [hemp]; exact List.chain'_singleton _
          · rw [hl, List.map_cons]
            exact List.chain'_cons.mpr ⟨hd, by rw [← List.map_cons, ← hl]; exact htr⟩
      · rw [if_neg hneg]
        rw [markersOf_cons_nonneg hneg] at hchain hbound
        by_cases htgt : head = (tgt : Int)
        · rw [if_pos htgt]
          refine ⟨?_, List.chain'_singleton _⟩
          intro st' h
          rw [List.mem_singleton] at h
          exact h ▸ hstInv
        · -- expansion
          rw [if_neg htgt]
          have hmq1 : markersOf (pushNeighbours (g.adj head.toNat)
              (if (g.adj head.toNat).length > 0 then rest ++ [-d - 1] else rest, v)).1
              = (if (g.adj head.toNat).length > 0
                 then markersOf rest ++ [d + 1] else markersOf rest) := by
            rw [pushNeighbours_markers]
            by_cases hdeg : (g.adj head.toNat).length > 0
            · rw [if_pos hdeg, if_pos hdeg, markersOf_append,
                markersOf_cons_neg (by omega : (-d - 1 : Int) < 0)]
              have hmnil : markersOf ([] : List Int) = [] := rfl
              rw [hmnil]
              have : (-(-d - 1) : Int) = d + 1 := by omega
              rw [this]
            · rw [if_neg hdeg, if_neg hdeg]
          have hchain' : List.Chain' (· ≤ ·)
              (d :: (if (g.adj head.toNat).length > 0
                     then markersOf rest ++ [d + 1] else markersOf rest)) := by
            by_cases hdeg : (g.adj head.toNat).length > 0
            · rw [if_pos hdeg]
              rw [show d :: (markersOf rest ++ [d + 1]) = (d :: markersOf rest) ++ [d + 1] from rfl]
              rw [List.chain'_append]
              refine ⟨hchain, List.chain'_singleton _, ?_⟩
              intro x hx y hy
              rw [List.head?_cons, Option.mem_some_iff] at hy
              subst hy
              rcases List.mem_cons.mp (List.mem_of_mem_getLast? hx) with h | h
              · omega
              · have := hbound x h
                omega
            · rw [if_neg hdeg]; exact hchain
          have hbound' : ∀ m ∈ (if (g.adj head.toNat).length > 0
              then markersOf rest ++ [d + 1] else markersOf rest), m ≤ d + 1 := by
            by_cases hdeg : (g.adj head.toNat).length > 0
            · rw [if_pos hdeg]
              intro m hm
              rcases List.mem_append.mp hm with h | h
              · exact hbound m h
              · rw [List.mem_singleton] at h; omega
            · rw [if_neg hdeg]; exact hbound
          have hinv' : MInv { queue := (pushNeighbours (g.adj head.toNat) (if (g.adj head.toNat).length > 0 then rest ++ [-d - 1] else rest, v)).1, visited := (pushNeighbours (g.adj head.toNat) (if (g.adj head.toNat).length > 0 then rest ++ [-d - 1] else rest, v)).2, distance := d } := by
            refine ⟨?_, ?_, ?_⟩
            · show List.Chain' (· ≤ ·) (d :: markersOf (pushNeighbours (g.adj head.toNat) (if (g.adj head.toNat).length > 0 then rest ++ [-d - 1] else rest, v)).1)
              rw [hmq1]; exact hchain'
            · show ∀ m ∈ markersOf (pushNeighbours (g.adj head.toNat) (if (g.adj head.toNat).length > 0 then rest ++ [-d - 1] else rest, v)).1, m ≤ d + 1
              rw [hmq1]; exact hbound'
            · show (1 : Int) ≤ d
              exact hdpos
          obtain ⟨hall, htr⟩ := ih _ hinv'
          refine ⟨?_, ?_⟩
          · intro st' h
            rcases List.mem_cons.mp h with h | h
            · exact h ▸ hstInv
            · exact hall st' h
          · rw [List.map_cons]
            rcases stateTrace_first g tgt n _ with hemp | ⟨l, hl⟩
            · rw [hemp]; exact List.chain'_singleton _
            · rw [hl, List.map_cons]
              exact List.chain'_cons.mpr ⟨le_refl d, by rw [← List.map_cons, ← hl]; exact htr⟩

/-- C10: throughout every run of `solve`, the `distance` counter never
decreases from one loop iteration to the next, and at every reached state
the current distance followed by the decoded marker values of the queue
(in FIFO order) is a non-decreasing chain — so every dequeued level
marker decodes to a value at least the current distance, even when
several markers were enqueued for the same frontier. -/
theorem claim_C10_distance_never_decreases (g : Graph) (s t : Nat) :
    List.Chain' (· ≤ ·) ((stateTrace g t (solveFuel g) (initState g s)).map BfsState.distance) ∧
    ∀ st ∈ stateTrace g t (solveFuel g) (initState g s),
      List.Chain' (· ≤ ·) (st.distance :: markersOf st.queue) := by
  have hmnil : markersOf ([] : List Int) = [] := rfl
  have hinv : MInv (initState g s) := by
    refine ⟨?_, ?_, ?_⟩
    · show List.Chain' (· ≤ ·) (1 :: markersOf [(s : Int)])
      rw [markersOf_cons_nonneg (by omega), hmnil]
      exact List.chain'_singleton _
    · show ∀ m ∈ markersOf [(s : Int)], m ≤ 1 + 1
      rw [markersOf_cons_nonneg (by omega), hmnil]
      intro m hm
      exact absurd hm (List.not_mem_nil m)
    · show (1 : Int) ≤ 1
      exact le_refl 1
  obtain ⟨hall, htr⟩ := stateTrace_chain g t (solveFuel g) (initState g s) hinv
  exact ⟨htr, fun st hst => (hall st hst).1⟩

/-- Witness for the C8 theorem: five enqueues into a fresh 2-capacity
buffer (forcing two growth events) followed by five dequeues return
exactly 10, 20, 30, 40, 50 in that order. -/
theorem claim_C8_witness :
    ({ capacity := 2, start := 0, size := 0, elements := [0, 0] } : CircularBuffer).WF ∧
    absRun (runBuf [QOp.enq 10, QOp.enq 20, QOp.enq 30, QOp.enq 40, QOp.enq 50,
        QOp.deq, QOp.deq, QOp.deq, QOp.deq, QOp.deq]
        { capacity := 2, start := 0, size := 0, elements := [0, 0] })
      = runIdeal [QOp.enq 10, QOp.enq 20, QOp.enq 30, QOp.enq 40, QOp.enq 50,
        QOp.deq, QOp.deq, QOp.deq, QOp.deq, QOp.deq]
        ({ capacity := 2, start := 0, size := 0, elements := [0, 0] } : CircularBuffer).toList :=
  ⟨by decide, claim_C8_buffer_strict_fifo _ _ (by decide)⟩

/-! ## Reachability balls and the BFS distance -/

/-- Cities within `k` steps of `s`: the `k`-th neighbourhood closure. -/
def ball (g : Graph) (s : Nat) : Nat → Finset Nat
  | 0 => {s}
  | k + 1 => ball g s k ∪ (ball g s k).biUnion (fun c => (g.adj c).toFinset)

/-- The BFS distance from `s` to `t`: the least `k ≤ size` with
`t ∈ ball g s k`, if any. -/
def distB (g : Graph) (s t : Nat) : Option Nat :=
  (List.range (g.size + 1)).find? (fun k => decide (t ∈ ball g s k))

/-- The value `solve` is expected to return: the BFS distance, or the
`IMPOSSIBLE` sentinel. -/
def expected (g : Graph) (s t : Nat) : Int :=
  match distB g s t with
  | some k => (k : Int)
  | none => -1

lemma mem_ball_zero {g : Graph} {s c : Nat} : c ∈ ball g s 0 ↔ c = s :=
  Finset.mem_singleton

lemma self_mem_ball (g : Graph) (s : Nat) : ∀ k, s ∈ ball g s k := by
  intro k
  induction k with
  | zero => exact mem_ball_zero.mpr rfl
  | succ k ih => exact Finset.mem_union_left _ ih

lemma mem_ball_succ {g : Graph} {s c : Nat} {k : Nat} :
    c ∈ ball g s (k + 1) ↔ c ∈ ball g s k ∨ ∃ p ∈ ball g s k, c ∈ g.adj p := by
  show c ∈ ball g s k ∪ (ball g s k).biUnion (fun c => (g.adj c).toFinset) ↔ _
  rw [Finset.mem_union, Finset.mem_biUnion]
  constructor
  · rintro (h | ⟨p, hp, hc⟩)
    · exact Or.inl h
    · exact Or.inr ⟨p, hp, List.mem_toFinset.mp hc⟩
  · rintro (h | ⟨p, hp, hc⟩)
    · exact Or.inl h
    · exact Or.inr ⟨p, hp, List.mem_toFinset.mpr hc⟩

lemma ball_mono_succ (g : Graph) (s : Nat) (k : Nat) : ball g s k ⊆ ball g s (k + 1) :=
  Finset.subset_union_left

lemma ball_mono (g : Graph) (s : Nat) {j k : Nat} (h : j ≤ k) : ball g s j ⊆ ball g s k := by
  induction h with
  | refl => exact fun x hx => hx
  | step h ih => exact ih.trans (ball_mono_succ g s _)

/-- All adjacency entries of a well-formed graph are valid cities. -/
lemma adj_lt {g : Graph} (hwf : g.WF) {c b : Nat} (hb : b ∈ g.adj c) : b < g.size := by
  obtain ⟨hlen, hent⟩ := hwf
  unfold Graph.adj at hb
  rw [List.getD_eq_getElem?_getD] at hb
  cases hnb : g.nbrs[c]? with
  | none => rw [hnb] at hb; exact absurd hb (List.not_mem_nil b)
  | some l =>
    rw [hnb] at hb
    have hcl : c < g.nbrs.length := by
      by_contra hc
      rw [List.getElem?_eq_none (by omega)] at hnb
      exact Option.noConfusion hnb
    have : l ∈ g.nbrs := by
      have := List.getElem?_eq_getElem hcl
      rw [hnb] at this
      exact (Option.some.injEq _ _).mp this.symm ▸ List.getElem_mem hcl
    exact hent l this b hb

lemma ball_subset_range {g : Graph} (hwf : g.WF) {s : Nat} (hs : s < g.size) :
    ∀ k, ball g s k ⊆ Finset.range g.size := by
  intro k
  induction k with
  | zero =>
    intro c hc
    rw [mem_ball_zero.mp hc]
    exact Finset.mem_range.mpr hs
  | succ k ih =>
    intro c hc
    rcases mem_ball_succ.mp hc with h | ⟨p, -, hc⟩
    · exact ih h
    · exact Finset.mem_range.mpr (adj_lt hwf hc)

lemma ball_stab (g : Graph) (s : Nat) {k : Nat} (h : ball g s (k + 1) = ball g s k) :
    ∀ j, k ≤ j → ball g s j = ball g s k := by
  intro j hj
  induction j with
  | zero => rw [Nat.le_zero.mp hj]
  | succ j ih =>
    rcases Nat.lt_or_ge k (j + 1) with h' | h'
    · have hjk : k ≤ j := by omega
      have hbj : ball g s j = ball g s k := ih hjk
      show ball g s j ∪ (ball g s j).biUnion (fun c => (g.adj c).toFinset) = ball g s k
      rw [hbj]
      exact h
    · have hke : k = j + 1 := by omega
      rw [hke]

/-- If `t` lies in some ball, it lies in a ball of index at most `size`:
before stabilisation the balls grow strictly, and they live inside
`range size`. -/
lemma mem_ball_le_size {g : Graph} (hwf : g.WF) {s t : Nat} (hs : s < g.size) {k : Nat}
    (h : t ∈ ball g s k) : ∃ j, j ≤ g.size ∧ t ∈ ball g s j := by
  by_cases hk : k ≤ g.size
  · exact ⟨k, hk, h⟩
  · -- no stabilisation below k would make the balls too big
    by_cases hstab : ∃ j, j < g.size + 1 ∧ ball g s (j + 1) = ball g s j
    · obtain ⟨j, hj, hstab⟩ := hstab
      refine ⟨j, by omega, ?_⟩
      rw [← ball_stab g s hstab k (by omega)]
      exact h
    · push_neg at hstab
      exfalso
      have hcard : ∀ j, j ≤ g.size + 1 → j + 1 ≤ (ball g s j).card := by
        intro j
        induction j with
        | zero =>
          intro _
          have : s ∈ ball g s 0 := self_mem_ball g s 0
          have := Finset.card_pos.mpr ⟨s, this⟩
          omega
        | succ j ih =>
          intro hj
          have hne : ball g s (j + 1) ≠ ball g s j := hstab j (by omega)
          have hss : ball g s j ⊂ ball g s (j + 1) :=
            (Finset.ssubset_iff_of_subset (ball_mono_succ g s j)).mpr (by
              by_contra hno
              push_neg at hno
              exact hne (Finset.Subset.antisymm (fun x hx => by
                by_contra hxx
                exact hxx (hno x hx)) (ball_mono_succ g s j)))
          have := Finset.card_lt_card hss
          have := ih (by omega)
          omega
      have h1 := hcard (g.size + 1) (le_refl _)
      have h2 := Finset.card_le_card (ball_subset_range hwf hs (g.size + 1))
      rw [Finset.card_range] at h2
      omega

lemma find?_range_eq_some {p : Nat → Bool} : ∀ {n k : Nat},
    (List.range n).find? p = some k ↔ (k < n ∧ p k = true ∧ ∀ j < k, p j = false) := by
  intro n
  induction n with
  | zero =>
    intro k
    constructor
    · intro h; exact absurd h (by simp [List.range_zero])
    · rintro ⟨hk, -, -⟩; omega
  | succ n ih =>
    intro k
    rw [List.range_succ, List.find?_append]
    cases hfn : (List.range n).find? p with
    | some j =>
      have hj := ih.mp hfn
      have hor : (Option.some j).or ((List.find? p [n])) = some j := rfl
      rw [hor]
      constructor
      · intro h
        have hjk : j = k := Option.some.inj h
        subst hjk
        exact ⟨by omega, hj.2.1, hj.2.2⟩
      · rintro ⟨hk, hpk, hmin⟩
        congr 1
        by_contra hne
        rcases Nat.lt_or_ge j k with hlt | hge
        · have := hmin j hlt
          rw [hj.2.1] at this
          exact Bool.noConfusion this
        · have hklt : k < j := by omega
          have := hj.2.2 k hklt
          rw [hpk] at this
          exact Bool.noConfusion this
    | none =>
      have hall : ∀ x ∈ List.range n, ¬ p x = true := List.find?_eq_none.mp hfn
      rw [Option.none_or, List.find?_singleton]
      by_cases hpn : p n = true
      · rw [if_pos hpn]
        constructor
        · intro h
          have : n = k := Option.some.inj h
          subst this
          refine ⟨by omega, hpn, ?_⟩
          intro j hj
          have := hall j (List.mem_range.mpr hj)
          cases hpj : p j
          · rfl
          · exact absurd hpj this
        · rintro ⟨hk, hpk, hmin⟩
          congr 1
          by_contra hne
          have hkn : k < n := by omega
          have := hall k (List.mem_range.mpr hkn)
          exact this hpk
      · rw [if_neg hpn]
        constructor
        · intro h; exact absurd h (Option.noConfusion)
        · rintro ⟨hk, hpk, hmin⟩
          exfalso
          rcases Nat.lt_or_ge k n with hlt | hge
          · exact hall k (List.mem_range.mpr hlt) hpk
          · have : k = n := by omega
            subst this
            exact hpn hpk

lemma distB_eq_some_iff {g : Graph} {s t k : Nat} :
    distB g s t = some k ↔ (k < g.size + 1 ∧ t ∈ ball g s k ∧ ∀ j < k, t ∉ ball g s j) := by
  unfold distB
  rw [find?_range_eq_some]
  constructor
  · rintro ⟨h1, h2, h3⟩
    refine ⟨h1, of_decide_eq_true h2, ?_⟩
    intro j hj
    have := h3 j hj
    exact of_decide_eq_false this
  · rintro ⟨h1, h2, h3⟩
    refine ⟨h1, decide_eq_true h2, ?_⟩
    intro j hj
    exact decide_eq_false (h3 j hj)

lemma distB_eq_none_iff {g : Graph} {s t : Nat} :
    distB g s t = none ↔ ∀ k < g.size + 1, t ∉ ball g s k := by
  unfold distB
  rw [List.find?_eq_none]
  constructor
  · intro h k hk hmem
    exact h k (List.mem_range.mpr hk) (decide_eq_true hmem)
  · intro h k hk hdec
    exact h k (List.mem_range.mp hk) (of_decide_eq_true hdec)

/-- The minimal witnessing level is what `distB` returns. -/
lemma distB_of_min {g : Graph} (hwf : g.WF) {s t k : Nat} (hs : s < g.size)
    (hmem : t ∈ ball g s k) (hmin : ∀ j < k, t ∉ ball g s j) : distB g s t = some k := by
  obtain ⟨j, hj, hjm⟩ := mem_ball_le_size hwf hs hmem
  have hkj : k ≤ j := by
    by_contra h
    exact hmin j (by omega) hjm
  exact distB_eq_some_iff.mpr ⟨by omega, hmem, hmin⟩

/-- If no ball contains `t`, `distB` is `none`. -/
lemma distB_none_of_unreachable {g : Graph} {s t : Nat}
    (h : ∀ k, t ∉ ball g s k) : distB g s t = none :=
  distB_eq_none_iff.mpr (fun k _ => h k)

/-! ## The neighbour loop, characterised; termination of the BFS loop -/

lemma count_false_set_true (v : List Bool) : ∀ (c : Nat), c < v.length →
    v.getD c false = false → (v.set c true).count false + 1 = v.count false := by
  induction v with
  | nil => intro c h; exact absurd h (by simp)
  | cons b v ih =>
    intro c hc hv
    cases c with
    | zero =>
      have hb : b = false := hv
      subst hb
      show ((true :: v).count false) + 1 = (false :: v).count false
      simp [List.count_cons]
    | succ c =>
      have hv' : v.getD c false = false := hv
      have hih := ih c (by simpa using hc) hv'
      show ((b :: v.set c true).count false) + 1 = (b :: v).count false
      cases b <;> simp [List.count_cons] <;> omega

lemma getD_set_bool (v : List Bool) (c₀ c : Nat) (h : c₀ < v.length) :
    (v.set c₀ true).getD c false = if c = c₀ then true else v.getD c false := by
  by_cases hc : c = c₀
  · rw [if_pos hc, hc]
    exact getD_set_self v true false h
  · rw [if_neg hc]
    exact getD_set_ne v true false (fun he => hc he.symm)

/-- Everything the expansion step does: the queue gains exactly the
previously unvisited neighbours (in order), the visited flags gain
exactly the neighbour set, and one `false` flag flips per enqueued city. -/
lemma pushNeighbours_full (cs : List Nat) : ∀ (q : List Int) (v : List Bool),
    (∀ c ∈ cs, c < v.length) →
    ∃ new : List Nat,
      (pushNeighbours cs (q, v)).1 = q ++ new.map (fun (c : Nat) => (c : Int)) ∧
      (pushNeighbours cs (q, v)).2.length = v.length ∧
      (∀ c : Nat, (pushNeighbours cs (q, v)).2.getD c false = true ↔
          (v.getD c false = true ∨ c ∈ cs)) ∧
      (∀ c : Nat, c ∈ new ↔ (c ∈ cs ∧ v.getD c false = false)) ∧
      ((pushNeighbours cs (q, v)).2.count false + new.length = v.count false) := by
  induction cs with
  | nil =>
    intro q v _
    refine ⟨[], by simp [pushNeighbours], rfl, ?_, by simp, by simp [pushNeighbours]⟩
    intro c
    simp [pushNeighbours]
  | cons c₀ cs ih =>
    intro q v hlen
    have hc₀ : c₀ < v.length := hlen c₀ (List.mem_cons_self c₀ cs)
    show ∃ new, (pushNeighbours (c₀ :: cs) (q, v)).1 = _ ∧ _
    rw [pushNeighbours]
    by_cases hv : v.getD c₀ false
    · rw [if_pos hv]
      obtain ⟨new, h1, h2, h3, h4, h5⟩ := ih q v (fun c hc => hlen c (List.mem_cons_of_mem _ hc))
      refine ⟨new, h1, h2, ?_, ?_, h5⟩
      · intro c
        rw [h3 c]
        constructor
        · rintro (h | h)
          · exact Or.inl h
          · exact Or.inr (List.mem_cons_of_mem _ h)
        · rintro (h | h)
          · exact Or.inl h
          · rcases List.mem_cons.mp h with h | h
            · subst h; exact Or.inl hv
            · exact Or.inr h
      · intro c
        rw [h4 c]
        constructor
        · rintro ⟨h, h'⟩
          exact ⟨List.mem_cons_of_mem _ h, h'⟩
        · rintro ⟨h, h'⟩
          rcases List.mem_cons.mp h with h | h
          · subst h
            rw [hv] at h'
            exact absurd h' (by simp)
          · exact ⟨h, h'⟩
    · rw [if_neg hv]
      have hvf : v.getD c₀ false = false := by
        cases hgd : v.getD c₀ false
        · rfl
        · exact absurd hgd hv
      have hvf' : v[c₀]?.getD false = false := by
        rw [← List.getD_eq_getElem?_getD]; exact hvf
      obtain ⟨new, h1, h2, h3, h4, h5⟩ := ih (q ++ [(c₀ : Int)]) (v.set c₀ true)
        (fun c hc => by rw [List.length_set]; exact hlen c (List.mem_cons_of_mem _ hc))
      refine ⟨c₀ :: new, ?_, ?_, ?_, ?_, ?_⟩
      · rw [h1, List.map_cons, List.append_assoc]
        rfl
      · rw [h2, List.length_set]
      · intro c
        rw [h3 c, getD_set_bool v c₀ c hc₀]
        by_cases hc : c = c₀
        · subst hc
          simp
        · rw [if_neg hc]
          constructor
          · rintro (h | h)
            · exact Or.inl h
            · exact Or.inr (List.mem_cons_of_mem _ h)
          · rintro (h | h)
            · exact Or.inl h
            · rcases List.mem_cons.mp h with h | h
              · exact absurd h hc
              · exact Or.inr h
      · intro c
        rw [List.mem_cons, h4 c, getD_set_bool v c₀ c hc₀]
        by_cases hc : c = c₀
        · subst hc
          simp [hvf']
        · rw [if_neg hc]
          constructor
          · rintro (h | ⟨h, h'⟩)
            · exact absurd h hc
            · exact ⟨List.mem_cons_of_mem _ h, h'⟩
          · rintro ⟨h, h'⟩
            rcases List.mem_cons.mp h with h | h
            · exact absurd h hc
            · exact Or.inr ⟨h, h'⟩
      · have hcount := count_false_set_true v c₀ hc₀ hvf
        show (pushNeighbours cs (q ++ [(c₀ : Int)], v.set c₀ true)).2.count false
            + (new.length + 1) = v.count false
        omega

def cityWeight (z : Int) : Nat := if z < 0 then 1 else 2

def qWeight (q : List Int) : Nat := (q.map cityWeight).sum

lemma qWeight_cons (z : Int) (q : List Int) : qWeight (z :: q) = cityWeight z + qWeight q := by
  simp [qWeight]

lemma qWeight_append (q r : List Int) : qWeight (q ++ r) = qWeight q + qWeight r := by
  simp [qWeight]

lemma qWeight_cities (new : List Nat) : qWeight (new.map (fun (c : Nat) => (c : Int))) = 2 * new.length := by
  induction new with
  | nil => rfl
  | cons c cs ih =>
    rw [List.map_cons, qWeight_cons, ih]
    have : cityWeight (c : Int) = 2 := by
      unfold cityWeight
      rw [if_neg (by omega)]
    rw [this, List.length_cons]
    omega

/-- The loop terminates: with fuel exceeding the measure
`queue-weight + 3 * unvisited`, the loop returns. -/
lemma solveLoop_isSome (g : Graph) (tgt : Nat) (hwf : g.WF) :
    ∀ fuel (st : BfsState), st.visited.length = g.size → 1 ≤ st.distance →
      qWeight st.queue + 3 * st.visited.count false < fuel →
      (solveLoop g tgt fuel st).isSome := by
  intro fuel
  induction fuel with
  | zero => intro st _ _ h; exact absurd h (by omega)
  | succ n ih =>
    intro st hlen hd1 hmu
    obtain ⟨q, v, d⟩ := st
    dsimp only at hlen hd1 hmu
    cases q with
    | nil => rw [solveLoop_succ]; exact rfl
    | cons head rest =>
      rw [solveLoop_succ]
      dsimp only
      rw [qWeight_cons] at hmu
      by_cases hneg : head < 0
      · rw [if_pos hneg]
        have hw : cityWeight head = 1 := by unfold cityWeight; rw [if_pos hneg]
        exact ih _ hlen (by dsimp only; omega) (by dsimp only; omega)
      · rw [if_neg hneg]
        by_cases htgt : head = (tgt : Int)
        · rw [if_pos htgt]; exact rfl
        · rw [if_neg htgt]
          have hw : cityWeight head = 2 := by unfold cityWeight; rw [if_neg hneg]
          rw [hw] at hmu
          have hadj : ∀ c ∈ g.adj head.toNat, c < v.length := by
            intro c hc
            rw [hlen]
            exact adj_lt hwf hc
          by_cases hdeg : (g.adj head.toNat).length > 0
          · rw [if_pos hdeg]
            obtain ⟨new, h1, h2, h3, h4, h5⟩ :=
              pushNeighbours_full (g.adj head.toNat) (rest ++ [-d - 1]) v hadj
            apply ih
            · dsimp only
              rw [h2, hlen]
            · exact hd1
            · dsimp only
              rw [h1, qWeight_append, qWeight_cities, qWeight_append, qWeight_cons]
              have hmw : cityWeight (-d - 1) = 1 := by
                unfold cityWeight
                rw [if_pos (by omega : (-d - 1 : Int) < 0)]
              rw [hmw]
              have hq0 : qWeight [] = 0 := rfl
              rw [hq0]
              omega
          · rw [if_neg hdeg]
            obtain ⟨new, h1, h2, h3, h4, h5⟩ :=
              pushNeighbours_full (g.adj head.toNat) rest v hadj
            apply ih
            · dsimp only
              rw [h2, hlen]
            · exact hd1
            · dsimp only
              rw [h1, qWeight_append, qWeight_cities]
              omega

/-- `solveFuel` exceeds the initial measure, so `solve`'s loop always
returns on a well-formed graph. -/
lemma solve_isSome (g : Graph) (s t : Nat) (hwf : g.WF) :
    (solveLoop g t (solveFuel g) (initState g s)).isSome := by
  apply solveLoop_isSome g t hwf
  · show (List.replicate g.size false).length = g.size
    exact List.length_replicate g.size false
  · show (1 : Int) ≤ 1
    exact le_refl 1
  · show qWeight [(s : Int)] + 3 * (List.replicate g.size false).count false < 3 * g.size + 3
    rw [List.count_replicate]
    have h1 : qWeight [(s : Int)] = 2 := by
      rw [qWeight_cons]
      unfold cityWeight qWeight
      rw [if_neg (by omega)]
      simp
    rw [h1]
    simp
    omega

/-! ## The main BFS invariant -/

/-- A city counts as seen if its visited flag is set, or it is the source
(which the code never marks at initialization). -/
def seenP (s : Nat) (v : List Bool) (c : Nat) : Prop :=
  v.getD c false = true ∨ c = s

/-- A city is processed once all its neighbours are seen. -/
def processedP (g : Graph) (s : Nat) (v : List Bool) (c : Nat) : Prop :=
  ∀ b ∈ g.adj c, seenP s v b

/-- A queue city of the current frontier: at level exactly `D` (the
source may also appear here later at a larger slot with true level 0). -/
def XCityP (g : Graph) (s D c : Nat) : Prop :=
  c < g.size ∧ c ∈ ball g s D ∧ (c = s ∨ c ∉ ball g s (D - 1))

/-- A queue city of the next frontier: level exactly `D + 1` (or the
re-enqueued source). -/
def YCityP (g : Graph) (s D c : Nat) : Prop :=
  c < g.size ∧ c ∈ ball g s (D + 1) ∧ (c = s ∨ c ∉ ball g s D)

/-- Every entry of `l` is the marker value `m` or a city satisfying `P`. -/
def entriesP (P : Nat → Prop) (m : Int) (l : List Int) : Prop :=
  ∀ z ∈ l, z = m ∨ ∃ c : Nat, z = (c : Int) ∧ P c

/-- The loop invariant of `solve`, at `distance = D + 1`: the queue
splits into the current frontier `X` (cities of level `D`, markers
`-(D+1)`) followed by the next frontier `Y` (marker-led, cities of level
`D+1`, markers `-(D+2)`); every city within distance `D` is seen, seen
cities are within distance `D+1`, cities within distance `D-1` are fully
expanded, cities at distance `D` are pending in `X` or expanded, seen
cities at exactly distance `D+1` are pending in `Y`, and the destination,
once seen, is still pending. -/
def BfsInv (g : Graph) (s tgt : Nat) (D : Nat) (q : List Int) (v : List Bool) : Prop :=
  v.length = g.size ∧ s < g.size ∧
  (∀ c : Nat, seenP s v c → c ∈ ball g s (D + 1)) ∧
  (∀ c ∈ ball g s D, seenP s v c) ∧
  (∀ j, j < D → ∀ c ∈ ball g s j, processedP g s v c) ∧
  (seenP s v tgt → (tgt : Int) ∈ q) ∧
  ∃ X Y, q = X ++ Y ∧
    entriesP (XCityP g s D) (-((D : Int) + 1)) X ∧
    entriesP (YCityP g s D) (-((D : Int) + 2)) Y ∧
    (Y = [] ∨ ∃ Y₁, Y = (-((D : Int) + 2)) :: Y₁) ∧
    (∀ c ∈ ball g s D, (c : Int) ∈ X ∨ processedP g s v c) ∧
    (∀ c ∈ ball g s (D + 1), c ∉ ball g s D → seenP s v c → (c : Int) ∈ Y)

/-- With an empty queue, no ball ever captures the destination. -/
lemma unreachable_of_inv_empty {g : Graph} {s tgt D : Nat} {v : List Bool}
    (hinv : BfsInv g s tgt D [] v) : ∀ k, tgt ∉ ball g s k := by
  obtain ⟨hvlen, hs, hI3, hI4, hI5, hI7, X, Y, hq, hEX, hEY, hYsh, hI6, hI6b⟩ := hinv
  have hX : X = [] := by
    cases hXc : X with
    | nil => rfl
    | cons a as =>
      rw [hXc] at hq
      exact absurd hq.symm (by simp)
  have hY : Y = [] := by
    rw [hX] at hq
    exact hq.symm
  subst hX hY
  have hseen : ∀ k, ∀ c ∈ ball g s k, seenP s v c := by
    intro k
    induction k with
    | zero =>
      intro c hc
      exact Or.inr (mem_ball_zero.mp hc)
    | succ k ih =>
      intro c hc
      rcases mem_ball_succ.mp hc with hc | ⟨p, hp, hcadj⟩
      · exact ih c hc
      · have hpseen := ih p hp
        have hpball : p ∈ ball g s (D + 1) := hI3 p hpseen
        have hproc : processedP g s v p := by
          by_cases hpD : p ∈ ball g s D
          · rcases hI6 p hpD with hmem | hproc
            · exact absurd hmem (List.not_mem_nil _)
            · exact hproc
          · have := hI6b p hpball hpD hpseen
            exact absurd this (List.not_mem_nil _)
        exact hproc c hcadj
  intro k hk
  have := hI7 (hseen k tgt hk)
  exact List.not_mem_nil _ this

/-- When the destination is dequeued from the current frontier, its level
is exactly `D`, so `expected` is `D`. -/
lemma expected_of_found {g : Graph} {s tgt D : Nat} (hwf : g.WF) (hs : s < g.size)
    (hneq : tgt ≠ s) (hx : XCityP g s D tgt) : expected g s tgt = (D : Int) := by
  obtain ⟨-, hmem, hmin⟩ := hx
  cases D with
  | zero => exact absurd (mem_ball_zero.mp hmem) hneq
  | succ D =>
    rcases hmin with h | hmin
    · exact absurd h hneq
    · have : distB g s tgt = some (D + 1) := by
        apply distB_of_min hwf hs hmem
        intro j hj
        intro hmem'
        exact hmin (ball_mono g s (by omega : j ≤ D + 1 - 1) hmem')
      unfold expected
      rw [this]

/-- The head of an invariant queue is a current-level marker, the
next-level marker, or a current-frontier city. -/
lemma head_cases {g : Graph} {s tgt D : Nat} {z : Int} {v : List Bool} {rest : List Int}
    (hinv : BfsInv g s tgt D (z :: rest) v) :
    z = -((D : Int) + 1) ∨ z = -((D : Int) + 2) ∨ ∃ u : Nat, z = (u : Int) ∧ XCityP g s D u := by
  obtain ⟨-, -, -, -, -, -, X, Y, hq, hEX, hEY, hYsh, -, -⟩ := hinv
  cases hX : X with
  | nil =>
    rw [hX, List.nil_append] at hq
    rcases hYsh with hY | ⟨Y₁, hY⟩
    · rw [hY] at hq; exact absurd hq (by simp)
    · rw [hY] at hq
      have := (List.cons.injEq _ _ _ _).mp hq
      exact Or.inr (Or.inl this.1)
  | cons x X₁ =>
    rw [hX, List.cons_append] at hq
    have hzx : z = x := ((List.cons.injEq _ _ _ _).mp hq).1
    rcases hEX x (hX.symm ▸ List.mem_cons_self x X₁) with h | ⟨u, hu, hcu⟩
    · exact Or.inl (hzx.trans h)
    · exact Or.inr (Or.inr ⟨u, hzx.trans hu, hcu⟩)

/-- Dequeuing a redundant current-level marker keeps the invariant. -/
lemma inv_marker_same {g : Graph} {s tgt D : Nat} {v : List Bool} {rest : List Int}
    (hinv : BfsInv g s tgt D ((-((D : Int) + 1)) :: rest) v) :
    BfsInv g s tgt D rest v := by
  obtain ⟨hvlen, hs, hI3, hI4, hI5, hI7, X, Y, hq, hEX, hEY, hYsh, hI6, hI6b⟩ := hinv
  cases hX : X with
  | nil =>
    rw [hX, List.nil_append] at hq
    rcases hYsh with hY | ⟨Y₁, hY⟩
    · rw [hY] at hq; exact absurd hq (by simp)
    · rw [hY] at hq
      have := ((List.cons.injEq _ _ _ _).mp hq).1
      exact absurd this (by omega)
  | cons x X₁ =>
    rw [hX, List.cons_append] at hq
    have hxz := ((List.cons.injEq _ _ _ _).mp hq).1
    have hrest : rest = X₁ ++ Y := ((List.cons.injEq _ _ _ _).mp hq).2
    refine ⟨hvlen, hs, hI3, hI4, hI5, ?_, X₁, Y, hrest, ?_, hEY, hYsh, ?_, hI6b⟩
    · intro hseen
      have := hI7 hseen
      rcases List.mem_cons.mp this with h | h
      · exact absurd h (by omega)
      · exact h
    · intro z hz
      exact hEX z (hX.symm ▸ List.mem_cons_of_mem x hz)
    · intro c hc
      rcases hI6 c hc with hmem | hproc
      · rw [hX] at hmem
        rcases List.mem_cons.mp hmem with h | h
        · rw [← hxz] at h
          exact absurd h (by omega)
        · exact Or.inl h
      · exact Or.inr hproc

/-- Dequeuing the next-level marker advances the invariant one level. -/
lemma inv_advance {g : Graph} {s tgt D : Nat} {v : List Bool} {rest : List Int}
    (hinv : BfsInv g s tgt D ((-((D : Int) + 2)) :: rest) v) :
    BfsInv g s tgt (D + 1) rest v := by
  obtain ⟨hvlen, hs, hI3, hI4, hI5, hI7, X, Y, hq, hEX, hEY, hYsh, hI6, hI6b⟩ := hinv
  -- the head cannot be an X entry, so X = [] and Y leads
  have hX : X = [] := by
    cases hXc : X with
    | nil => rfl
    | cons x X₁ =>
      rw [hXc, List.cons_append] at hq
      have hxz := ((List.cons.injEq _ _ _ _).mp hq).1
      rcases hEX x (hXc.symm ▸ List.mem_cons_self x X₁) with h | ⟨u, hu, -⟩
      · rw [← hxz] at h
        exact absurd h (by omega)
      · rw [← hxz] at hu
        exact absurd hu (by omega)
  rw [hX, List.nil_append] at hq
  have hYr : Y = (-((D : Int) + 2)) :: rest := hq.symm
  -- with X empty, every city at distance D is processed
  have hprocD : ∀ c ∈ ball g s D, processedP g s v c := by
    intro c hc
    rcases hI6 c hc with hmem | hproc
    · rw [hX] at hmem
      exact absurd hmem (List.not_mem_nil _)
    · exact hproc
  -- hence every city at distance D + 1 is seen
  have hseenD1 : ∀ c ∈ ball g s (D + 1), seenP s v c := by
    intro c hc
    rcases mem_ball_succ.mp hc with hc' | ⟨p, hp, hcadj⟩
    · exact hI4 c hc'
    · exact hprocD p hp c hcadj
  refine ⟨hvlen, hs, ?_, hseenD1, ?_, ?_, rest, [], (List.append_nil rest).symm, ?_, ?_, Or.inl rfl, ?_, ?_⟩
  · intro c hc
    exact ball_mono_succ g s (D + 1) (hI3 c hc)
  · intro j hj c hc
    rcases Nat.lt_succ_iff_lt_or_eq.mp hj with hj' | hj'
    · exact hI5 j hj' c hc
    · subst hj'
      exact hprocD c hc
  · intro hseen
    have := hI7 hseen
    rcases List.mem_cons.mp this with h | h
    · exact absurd h (by omega)
    · exact h
  · intro z hz
    rcases hEY z (hYr.symm ▸ List.mem_cons_of_mem _ hz) with h | ⟨c, hc, hcy⟩
    · left
      rw [h]
      push_cast
      ring
    · right
      exact ⟨c, hc, hcy.1, hcy.2.1, hcy.2.2⟩
  · intro z hz
    exact absurd hz (List.not_mem_nil z)
  · intro c hc
    by_cases hcD : c ∈ ball g s D
    · exact Or.inr (hprocD c hcD)
    · have := hI6b c hc hcD (hseenD1 c hc)
      rw [hYr] at this
      rcases List.mem_cons.mp this with h | h
      · exact absurd h (by omega)
      · exact Or.inl h
  · intro c hc hc1 hseen
    exact absurd (hI3 c hseen) hc1

/-- Expanding a current-frontier city keeps the invariant: the marker
`-(D+2)` and the newly seen neighbours are appended to the next
frontier, and the expanded city becomes processed. -/
lemma inv_expand {g : Graph} {s tgt D : Nat} {v : List Bool} {u : Nat} {rest : List Int}
    (hwf : g.WF) (hutgt : u ≠ tgt)
    (hinv : BfsInv g s tgt D ((u : Int) :: rest) v) :
    BfsInv g s tgt D
      (pushNeighbours (g.adj u)
        ((if (g.adj u).length > 0 then rest ++ [-((D : Int) + 2)] else rest), v)).1
      (pushNeighbours (g.adj u)
        ((if (g.adj u).length > 0 then rest ++ [-((D : Int) + 2)] else rest), v)).2 := by
  obtain ⟨hvlen, hs, hI3, hI4, hI5, hI7, X, Y, hq, hEX, hEY, hYsh, hI6, hI6b⟩ := hinv
  -- the head is a city, so it must come from a nonempty X
  obtain ⟨X₁, hX, hrest, hu⟩ :
      ∃ X₁, X = (u : Int) :: X₁ ∧ rest = X₁ ++ Y ∧ XCityP g s D u := by
    cases hXc : X with
    | nil =>
      rw [hXc, List.nil_append] at hq
      rcases hYsh with hY | ⟨Y₁, hY⟩
      · rw [hY] at hq; exact absurd hq (by simp)
      · rw [hY] at hq
        have := ((List.cons.injEq _ _ _ _).mp hq).1
        exact absurd this (by omega)
    | cons x X₁ =>
      rw [hXc, List.cons_append] at hq
      have hinj := (List.cons.injEq _ _ _ _).mp hq
      rcases hEX x (hXc.symm ▸ List.mem_cons_self x X₁) with h | ⟨c, hc, hcP⟩
      · rw [← hinj.1] at h
        exact absurd h (by omega)
      · have hcu : c = u := by
          have : (u : Int) = (c : Int) := hinj.1.trans hc
          exact_mod_cast this.symm
        subst hcu
        refine ⟨X₁, ?_, hinj.2, hcP⟩
        rw [hinj.1]
  have hadjlen : ∀ c ∈ g.adj u, c < v.length := by
    intro c hc
    rw [hvlen]
    exact adj_lt hwf hc
  obtain ⟨new, hq', hvlen', hvis, hnew, -⟩ :=
    pushNeighbours_full (g.adj u)
      (if (g.adj u).length > 0 then rest ++ [-((D : Int) + 2)] else rest) v hadjlen
  have hseen' : ∀ c : Nat,
      seenP s (pushNeighbours (g.adj u)
        ((if (g.adj u).length > 0 then rest ++ [-((D : Int) + 2)] else rest), v)).2 c ↔
      (seenP s v c ∨ c ∈ g.adj u) := by
    intro c
    unfold seenP
    rw [hvis c]
    constructor
    · rintro ((h | h) | h)
      · exact Or.inl (Or.inl h)
      · exact Or.inr h
      · exact Or.inl (Or.inr h)
    · rintro ((h | h) | h)
      · exact Or.inl (Or.inl h)
      · exact Or.inr h
      · exact Or.inl (Or.inr h)
  have huD : u ∈ ball g s D := hu.2.1
  have hcsball : ∀ c ∈ g.adj u, c ∈ ball g s (D + 1) := by
    intro c hc
    exact mem_ball_succ.mpr (Or.inr ⟨u, huD, hc⟩)
  have hmono : ∀ c, processedP g s v c →
      processedP g s (pushNeighbours (g.adj u)
        ((if (g.adj u).length > 0 then rest ++ [-((D : Int) + 2)] else rest), v)).2 c := by
    intro c h b hb
    exact (hseen' b).mpr (Or.inl (h b hb))
  have hprocu : processedP g s (pushNeighbours (g.adj u)
      ((if (g.adj u).length > 0 then rest ++ [-((D : Int) + 2)] else rest), v)).2 u := by
    intro b hb
    exact (hseen' b).mpr (Or.inr hb)
  have hnewnil : ¬ (g.adj u).length > 0 → new = [] := by
    intro hdeg
    have hcs : g.adj u = [] := List.eq_nil_of_length_eq_zero (by omega)
    refine List.eq_nil_iff_forall_not_mem.mpr (fun c hc => ?_)
    have := ((hnew c).mp hc).1
    rw [hcs] at this
    exact List.not_mem_nil c this
  refine ⟨hvlen'.trans hvlen, hs, ?_, ?_, ?_, ?_,
    X₁, Y ++ (if (g.adj u).length > 0
      then (-((D : Int) + 2)) :: new.map (fun (c : Nat) => (c : Int))
      else new.map (fun (c : Nat) => (c : Int))), ?_, ?_, ?_, ?_, ?_, ?_⟩
  · intro c hc
    rcases (hseen' c).mp hc with h | h
    · exact hI3 c h
    · exact hcsball c h
  · intro c hc
    exact (hseen' c).mpr (Or.inl (hI4 c hc))
  · intro j hj c hc
    exact hmono c (hI5 j hj c hc)
  · intro hseen
    by_cases hold : seenP s v tgt
    · have := hI7 hold
      rcases List.mem_cons.mp this with h | h
      · exfalso
        apply hutgt
        exact_mod_cast h.symm
      · rw [hq']
        apply List.mem_append_left
        by_cases hdeg : (g.adj u).length > 0
        · rw [if_pos hdeg]
          exact List.mem_append_left _ h
        · rw [if_neg hdeg]
          exact h
    · have htgtadj : tgt ∈ g.adj u := by
        rcases (hseen' tgt).mp hseen with h | h
        · exact absurd h hold
        · exact h
      have hvtgt : v.getD tgt false = false := by
        cases hv : v.getD tgt false
        · rfl
        · exact absurd (Or.inl hv) hold
      have : tgt ∈ new := (hnew tgt).mpr ⟨htgtadj, hvtgt⟩
      rw [hq']
      apply List.mem_append_right
      exact List.mem_map_of_mem _ this
  · -- queue decomposition
    rw [hq', hrest]
    by_cases hdeg : (g.adj u).length > 0
    · rw [if_pos hdeg, if_pos hdeg]
      simp [List.append_assoc]
    · rw [if_neg hdeg, if_neg hdeg]
      simp [List.append_assoc]
  · intro z hz
    exact hEX z (hX.symm ▸ List.mem_cons_of_mem _ hz)
  · intro z hz
    rcases List.mem_append.mp hz with hz | hz
    · exact hEY z hz
    · have hzin : z = -((D : Int) + 2) ∨ z ∈ new.map (fun (c : Nat) => (c : Int)) := by
        by_cases hdeg : (g.adj u).length > 0
        · rw [if_pos hdeg] at hz
          rcases List.mem_cons.mp hz with h | h
          · exact Or.inl h
          · exact Or.inr h
        · rw [if_neg hdeg] at hz
          exact Or.inr hz
      rcases hzin with h | h
      · exact Or.inl h
      · obtain ⟨c, hcnew, hcz⟩ := List.mem_map.mp h
        right
        refine ⟨c, hcz.symm, adj_lt hwf ((hnew c).mp hcnew).1, hcsball c ((hnew c).mp hcnew).1, ?_⟩
        by_cases hcD : c ∈ ball g s D
        · rcases hI4 c hcD with hv | hcs
          · exfalso
            rw [((hnew c).mp hcnew).2] at hv
            exact Bool.noConfusion hv
          · exact Or.inl hcs
        · exact Or.inr hcD
  · -- Y shape
    rcases hYsh with hY | ⟨Y₁, hY⟩
    · subst hY
      rw [List.nil_append]
      by_cases hdeg : (g.adj u).length > 0
      · rw [if_pos hdeg]
        exact Or.inr ⟨_, rfl⟩
      · rw [if_neg hdeg, hnewnil hdeg]
        exact Or.inl rfl
    · subst hY
      rw [List.cons_append]
      exact Or.inr ⟨_, rfl⟩
  · intro c hc
    rcases hI6 c hc with hmem | hproc
    · rw [hX] at hmem
      rcases List.mem_cons.mp hmem with h | h
      · have : c = u := by exact_mod_cast h
        subst this
        exact Or.inr hprocu
      · exact Or.inl h
    · exact Or.inr (hmono c hproc)
  · intro c hc hcD hcseen
    by_cases hold : seenP s v c
    · exact List.mem_append_left _ (hI6b c hc hcD hold)
    · have hcadj : c ∈ g.adj u := by
        rcases (hseen' c).mp hcseen with h | h
        · exact absurd h hold
        · exact h
      have hvc : v.getD c false = false := by
        cases hv : v.getD c false
        · rfl
        · exact absurd (Or.inl hv) hold
      have hcnew : c ∈ new := (hnew c).mpr ⟨hcadj, hvc⟩
      apply List.mem_append_right
      by_cases hdeg : (g.adj u).length > 0
      · rw [if_pos hdeg]
        exact List.mem_cons_of_mem _ (List.mem_map_of_mem _ hcnew)
      · rw [if_neg hdeg]
        exact List.mem_map_of_mem _ hcnew

/-- Partial correctness: from an invariant state the loop either runs out
of fuel or returns exactly the expected BFS answer. -/
lemma solveLoop_correct_aux (g : Graph) (s tgt : Nat) (hwf : g.WF) (hneq : tgt ≠ s) :
    ∀ fuel D (q : List Int) (v : List Bool), BfsInv g s tgt D q v →
      solveLoop g tgt fuel { queue := q, visited := v, distance := (D : Int) + 1 }
          = some (expected g s tgt) ∨
      solveLoop g tgt fuel { queue := q, visited := v, distance := (D : Int) + 1 } = none := by
  intro fuel
  induction fuel with
  | zero => intro D q v _; exact Or.inr rfl
  | succ n ih =>
    intro D q v hinv
    have hs : s < g.size := hinv.2.1
    cases hq : q with
    | nil =>
      subst hq
      left
      rw [solveLoop_succ]
      have hunr := unreachable_of_inv_empty hinv
      have hnone : distB g s tgt = none := distB_none_of_unreachable hunr
      unfold expected
      rw [hnone]
    | cons z rest =>
      subst hq
      rcases head_cases hinv with hz | hz | ⟨u, hz, hu⟩
      · subst hz
        rw [solveLoop_succ]
        dsimp only
        rw [if_pos (by omega : -((D : Int) + 1) < 0), neg_neg]
        exact ih D rest v (inv_marker_same hinv)
      · subst hz
        rw [solveLoop_succ]
        dsimp only
        rw [if_pos (by omega : -((D : Int) + 2) < 0), neg_neg]
        have hcast : ((D : Int) + 2) = ((D + 1 : Nat) : Int) + 1 := by push_cast; ring
        rw [hcast]
        exact ih (D + 1) rest v (inv_advance hinv)
      · subst hz
        rw [solveLoop_succ]
        dsimp only
        rw [if_neg (by omega : ¬ ((u : Int) < 0))]
        by_cases hteq : (u : Int) = (tgt : Int)
        · rw [if_pos hteq]
          left
          have hut : u = tgt := by exact_mod_cast hteq
          subst hut
          have hexp := expected_of_found hwf hs hneq hu
          rw [hexp]
          congr 1
          ring
        · rw [if_neg hteq]
          have hut : u ≠ tgt := fun h => hteq (by exact_mod_cast h)
          rw [Int.toNat_natCast]
          have hm : -((D : Int) + 1) - 1 = -((D : Int) + 2) := by ring
          rw [hm]
          exact ih D _ _ (inv_expand hwf hut hinv)

lemma getD_replicate_false (n c : Nat) : (List.replicate n false).getD c false = false := by
  rw [List.getD_eq_getElem?_getD, List.getElem?_replicate]
  by_cases h : c < n
  · rw [if_pos h]; rfl
  · rw [if_neg h]; rfl

lemma solve_self_eq (g : Graph) (x : Nat) : solve g x x = 0 := by
  have h : solveFuel g = 3 * g.size + 2 + 1 := rfl
  unfold solve
  rw [h, solveLoop_succ]
  dsimp only [initState]
  rw [if_neg (by omega), if_pos rfl]
  rfl

lemma expected_self (g : Graph) (s : Nat) : expected g s s = 0 := by
  have h : distB g s s = some 0 :=
    distB_eq_some_iff.mpr ⟨by omega, self_mem_ball g s 0, by omega⟩
  unfold expected
  rw [h]
  rfl

/-- The initial state satisfies the invariant at level 0. -/
lemma inv_init (g : Graph) (s t : Nat) (hs : s < g.size) (hst : t ≠ s) :
    BfsInv g s t 0 [(s : Int)] (List.replicate g.size false) := by
  refine ⟨List.length_replicate _ _, hs, ?_, ?_, ?_, ?_,
    [(s : Int)], [], rfl, ?_, ?_, Or.inl rfl, ?_, ?_⟩
  · intro c hc
    rcases hc with hv | hcs
    · rw [getD_replicate_false] at hv
      exact absurd hv (by simp)
    · rw [hcs]
      exact self_mem_ball g s 1
  · intro c hc
    exact Or.inr (mem_ball_zero.mp hc)
  · intro j hj
    exact absurd hj (by omega)
  · intro hseen
    rcases hseen with hv | hts
    · rw [getD_replicate_false] at hv
      exact absurd hv (by simp)
    · exact absurd hts hst
  · intro z hz
    rw [List.mem_singleton] at hz
    subst hz
    exact Or.inr ⟨s, rfl, hs, self_mem_ball g s 0, Or.inl rfl⟩
  · intro z hz
    exact absurd hz (List.not_mem_nil z)
  · intro c hc
    left
    rw [mem_ball_zero.mp hc]
    exact List.mem_singleton.mpr rfl
  · intro c hc hc0 hseen
    exfalso
    apply hc0
    rcases hseen with hv | hcs
    · rw [getD_replicate_false] at hv
      exact absurd hv (by simp)
    · rw [hcs]
      exact self_mem_ball g s 0

/-- Full functional correctness of the marker BFS: on a well-formed
graph, `solve` returns the shortest hop distance in the (hub-augmented)
graph, or the `IMPOSSIBLE` sentinel when the destination is unreachable. -/
theorem solve_eq_expected (g : Graph) (s t : Nat) (hwf : g.WF) (hs : s < g.size) :
    solve g s t = expected g s t := by
  by_cases hst : t = s
  · subst hst
    rw [solve_self_eq, expected_self]
  · have hres := solveLoop_correct_aux g s t hwf hst (solveFuel g) 0 [(s : Int)]
      (List.replicate g.size false) (inv_init g s t hs hst)
    have hstate : initState g s
        = { queue := [(s : Int)], visited := List.replicate g.size false,
            distance := ((0 : Nat) : Int) + 1 } := by
      unfold initState
      norm_num
    unfold solve
    rw [hstate]
    rcases hres with h | h
    · rw [h]
      rfl
    · exfalso
      have hsome := solve_isSome g s t hwf
      rw [hstate] at hsome
      rw [h] at hsome
      exact Bool.noConfusion hsome

/-! ## Symmetry of the BFS distance -/

/-- Walks in the graph, extended one adjacency step at the far end. -/
inductive Walk (g : Graph) : Nat → Nat → Nat → Prop where
  | refl (a : Nat) : Walk g a a 0
  | step {a b c : Nat} {n : Nat} : Walk g a b n → c ∈ g.adj b → Walk g a c (n + 1)

lemma walk_zero {g : Graph} {a b : Nat} (h : Walk g a b 0) : a = b := by
  cases h
  rfl

lemma mem_ball_iff_walk {g : Graph} {s : Nat} :
    ∀ {k c : Nat}, c ∈ ball g s k ↔ ∃ n, n ≤ k ∧ Walk g s c n := by
  intro k
  induction k with
  | zero =>
    intro c
    constructor
    · intro h
      refine ⟨0, le_refl 0, ?_⟩
      rw [mem_ball_zero.mp h]
      exact Walk.refl s
    · rintro ⟨n, hn, hw⟩
      have hn0 : n = 0 := by omega
      subst hn0
      rw [← walk_zero hw]
      exact self_mem_ball g s 0
  | succ k ih =>
    intro c
    constructor
    · intro h
      rcases mem_ball_succ.mp h with h | ⟨p, hp, hc⟩
      · obtain ⟨n, hn, hw⟩ := ih.mp h
        exact ⟨n, by omega, hw⟩
      · obtain ⟨n, hn, hw⟩ := ih.mp hp
        exact ⟨n + 1, by omega, Walk.step hw hc⟩
    · rintro ⟨n, hn, hw⟩
      cases hw with
      | refl => exact self_mem_ball g s _
      | step hw' hadj =>
        exact mem_ball_succ.mpr (Or.inr ⟨_, ih.mpr ⟨_, by omega, hw'⟩, hadj⟩)

lemma walk_cons {g : Graph} {b c : Nat} (hbc : b ∈ g.adj c) :
    ∀ {a n : Nat}, Walk g b a n → Walk g c a (n + 1) := by
  intro a n hw
  induction hw with
  | refl => exact Walk.step (Walk.refl c) hbc
  | step hw' hadj ih => exact Walk.step ih hadj

lemma walk_symm {g : Graph} (hsym : g.Symm) :
    ∀ {a b n : Nat}, Walk g a b n → Walk g b a n := by
  intro a b n hw
  induction hw with
  | refl => exact Walk.refl _
  | step hw' hadj ih => exact walk_cons ((hsym _ _).mp hadj) ih

lemma ball_symm {g : Graph} (hsym : g.Symm) {a b k : Nat} :
    b ∈ ball g a k ↔ a ∈ ball g b k := by
  rw [mem_ball_iff_walk, mem_ball_iff_walk]
  constructor
  · rintro ⟨n, hn, hw⟩
    exact ⟨n, hn, walk_symm hsym hw⟩
  · rintro ⟨n, hn, hw⟩
    exact ⟨n, hn, walk_symm hsym hw⟩

lemma find?_congr {p q : Nat → Bool} :
    ∀ l : List Nat, (∀ x ∈ l, p x = q x) → l.find? p = l.find? q := by
  intro l
  induction l with
  | nil => intro _; rfl
  | cons a l ih =>
    intro h
    rw [List.find?_cons, List.find?_cons, h a (List.mem_cons_self a l)]
    cases q a
    · exact ih (fun x hx => h x (List.mem_cons_of_mem a hx))
    · rfl

lemma distB_symm {g : Graph} (hsym : g.Symm) (a b : Nat) :
    distB g a b = distB g b a := by
  unfold distB
  apply find?_congr
  intro k _
  have := @ball_symm g hsym a b k
  by_cases h : b ∈ ball g a k
  · rw [decide_eq_true h, decide_eq_true (this.mp h)]
  · rw [decide_eq_false h, decide_eq_false (fun h' => h (this.mpr h'))]

/-- Any nonempty adjacency pins its city inside the node range. -/
lemma lt_size_of_adj_mem {g : Graph} (hwf : g.WF) {a b : Nat} (h : a ∈ g.adj b) :
    b < g.size := by
  by_contra hb
  have hlen : g.nbrs.length ≤ b := by
    rw [hwf.1]; omega
  unfold Graph.adj at h
  rw [List.getD_eq_getElem?_getD, List.getElem?_eq_none hlen] at h
  exact List.not_mem_nil a h

/-- Symmetry on the valid range extends to full symmetry for well-formed
graphs (out-of-range cities have empty adjacency). -/
lemma symm_of_bounded (g : Graph) (hwf : g.WF)
    (h : ∀ a, a < g.size → ∀ b, b < g.size → (a ∈ g.adj b ↔ b ∈ g.adj a)) : g.Symm := by
  intro a b
  constructor
  · intro hab
    exact (h a (adj_lt hwf hab) b (lt_size_of_adj_mem hwf hab)).mp hab
  · intro hba
    exact (h a (lt_size_of_adj_mem hwf hba) b (adj_lt hwf hba)).mpr hba

/-- C6: for every well-formed undirected graph and every pair of cities,
`solve(g, a, b) = solve(g, b, a)`: swapping source and destination never
changes the reported distance nor the `Impossible` outcome. -/
theorem claim_C6_solve_symmetric (g : Graph) (a b : Nat) (hwf : g.WF) (hsym : g.Symm)
    (ha : a < g.size) (hb : b < g.size) : solve g a b = solve g b a := by
  rw [solve_eq_expected g a b hwf ha, solve_eq_expected g b a hwf hb]
  unfold expected
  rw [distB_symm hsym a b]

/-- Witness for C6 on the concrete hub graph of the C1 scenario. -/
theorem claim_C6_witness :
    (buildMainC 3 [1, 2] []).WF ∧ 1 < (buildMainC 3 [1, 2] []).size ∧
      2 < (buildMainC 3 [1, 2] []).size ∧
      solve (buildMainC 3 [1, 2] []) 1 2 = solve (buildMainC 3 [1, 2] []) 2 1 :=
  ⟨by decide, by decide, by decide,
    claim_C6_solve_symmetric (buildMainC 3 [1, 2] []) 1 2 (by decide)
      (symm_of_bounded _ (by decide) (by decide)) (by decide) (by decide)⟩

/-! ## The two graph builders agree (C2) -/

/-- The insertion items of the flat-array build, in the order the second
pass installs them: the routes first, then one hub–airport pair per
airport. -/
def itemsOf (airports : List Nat) (edges : List (Nat × Nat)) : List (Nat × Nat) :=
  edges ++ airports.map (fun c => (0, c))

/-- The append-based reference form of the flat build: the same items
installed by plain list appends (hub 0, 1-indexed cities). -/
def buildRef (n : Nat) (airports : List Nat) (edges : List (Nat × Nat)) : Graph :=
  { size := n + 1,
    nbrs := ((itemsOf airports edges).foldl (fun nb it => graph_add_railway nb it.1 it.2)
      (List.replicate (n + 2) [])).take (n + 1) }

/-- How many incidences a list of items gives city `c`. -/
def incCount (items : List (Nat × Nat)) (c : Nat) : Nat :=
  items.countP (fun it => decide (it.1 = c)) + items.countP (fun it => decide (it.2 = c))

lemma bump_length (d : List Nat) (i : Nat) : (bump d i).length = d.length := by
  unfold bump
  exact List.length_set d i _

lemma bump_getD (d : List Nat) (i c : Nat) (hi : i < d.length) :
    (bump d i).getD c 0 = d.getD c 0 + (if i = c then 1 else 0) := by
  unfold bump
  by_cases hic : i = c
  · subst hic
    rw [getD_set_self d _ 0 hi, if_pos rfl]
  · rw [getD_set_ne d _ 0 hic, if_neg hic]
    omega

lemma foldl_bump2_getD {α : Type} (f1 f2 : α → Nat) :
    ∀ (L : List α) (d : List Nat), (∀ a ∈ L, f1 a < d.length ∧ f2 a < d.length) →
      (∀ c, (L.foldl (fun d a => bump (bump d (f1 a)) (f2 a)) d).getD c 0
          = d.getD c 0 + L.countP (fun a => decide (f1 a = c))
            + L.countP (fun a => decide (f2 a = c))) ∧
      (L.foldl (fun d a => bump (bump d (f1 a)) (f2 a)) d).length = d.length := by
  intro L
  induction L with
  | nil => intro d _; exact ⟨fun c => by simp [List.countP_nil], rfl⟩
  | cons a L ih =>
    intro d hin
    have ha := hin a (List.mem_cons_self a L)
    have hd' : ∀ b ∈ L, f1 b < (bump (bump d (f1 a)) (f2 a)).length ∧
        f2 b < (bump (bump d (f1 a)) (f2 a)).length := by
      intro b hb
      rw [bump_length, bump_length]
      exact hin b (List.mem_cons_of_mem a hb)
    obtain ⟨ihg, ihl⟩ := ih (bump (bump d (f1 a)) (f2 a)) hd'
    constructor
    · intro c
      show (List.foldl _ (bump (bump d (f1 a)) (f2 a)) L).getD c 0 = _
      rw [ihg c]
      rw [bump_getD _ _ _ (by rw [bump_length]; exact ha.2),
        bump_getD _ _ _ ha.1]
      rw [List.countP_cons, List.countP_cons]
      by_cases h1 : f1 a = c <;> by_cases h2 : f2 a = c <;>
        simp [h1, h2] <;> omega
    · show (List.foldl _ (bump (bump d (f1 a)) (f2 a)) L).length = d.length
      rw [ihl, bump_length, bump_length]

/-- The first pass counts exactly the incidences of the item list. -/
lemma degreesPass_spec (n : Nat) (airports : List Nat) (edges : List (Nat × Nat))
    (hap : ∀ c ∈ airports, 1 ≤ c ∧ c ≤ n) (hed : ∀ e ∈ edges, 1 ≤ e.1 ∧ e.1 ≤ n ∧ 1 ≤ e.2 ∧ e.2 ≤ n) :
    (∀ c, (degreesPass n airports edges).getD c 0 = incCount (itemsOf airports edges) c) ∧
    (degreesPass n airports edges).length = n + 2 := by
  unfold degreesPass
  have hap' : ∀ a ∈ airports,
      (fun _ : Nat => 0) a < (List.replicate (n + 2) 0).length ∧
      (fun c : Nat => c) a < (List.replicate (n + 2) 0).length := by
    intro a ha
    have := hap a ha
    constructor <;> simp <;> omega
  obtain ⟨hag, hal⟩ := foldl_bump2_getD (fun _ => 0) (fun c => c) airports
    (List.replicate (n + 2) 0) hap'
  have hed' : ∀ e ∈ edges,
      (fun e : Nat × Nat => e.1) e
        < (airports.foldl (fun d a => bump (bump d 0) a) (List.replicate (n + 2) 0)).length ∧
      (fun e : Nat × Nat => e.2) e
        < (airports.foldl (fun d a => bump (bump d 0) a) (List.replicate (n + 2) 0)).length := by
    intro e he
    have h := hed e he
    have : (airports.foldl (fun d a => bump (bump d 0) a) (List.replicate (n + 2) 0)).length
        = n + 2 := by
      have := hal
      simpa using this
    rw [this]
    dsimp only
    omega
  obtain ⟨heg, hel⟩ := foldl_bump2_getD (fun e : Nat × Nat => e.1) (fun e : Nat × Nat => e.2)
    edges (airports.foldl (fun d a => bump (bump d 0) a) (List.replicate (n + 2) 0)) hed'
  constructor
  · intro c
    rw [heg c, hag c]
    have hrep : (List.replicate (n + 2) (0 : Nat)).getD c 0 = 0 := by
      rw [List.getD_eq_getElem?_getD, List.getElem?_replicate]
      by_cases h : c < n + 2
      · rw [if_pos h]; rfl
      · rw [if_neg h]; rfl
    rw [hrep]
    unfold incCount itemsOf
    rw [List.countP_append, List.countP_append, List.countP_map, List.countP_map]
    have hm1 : airports.countP ((fun it : Nat × Nat => decide (it.1 = c)) ∘ (fun c => (0, c)))
        = airports.countP (fun _ => decide (0 = c)) := rfl
    have hm2 : airports.countP ((fun it : Nat × Nat => decide (it.2 = c)) ∘ (fun c => (0, c)))
        = airports.countP (fun a => decide (a = c)) := rfl
    rw [hm1, hm2]
    have hconst : airports.countP (fun _ => decide (0 = c))
        = airports.countP (fun a => decide ((fun _ : Nat => 0) a = c)) := rfl
    omega
  · rw [hel]
    simpa using hal

lemma getD_eq_getElem (d : List Nat) (c : Nat) (hc : c < d.length) : d.getD c 0 = d[c] := by
  rw [List.getD_eq_getElem?_getD, List.getElem?_eq_getElem hc]
  rfl

lemma offsets_getD (d : List Nat) (c : Nat) (hc : c < d.length) :
    (offsets d).getD c 0 = (d.take c).sum := by
  unfold offsets
  rw [List.getD_eq_getElem?_getD, List.getElem?_map, List.getElem?_range hc]
  rfl

lemma take_sum_succ (d : List Nat) (c : Nat) (hc : c < d.length) :
    (d.take (c + 1)).sum = (d.take c).sum + d.getD c 0 := by
  rw [List.sum_take_succ d c hc, getD_eq_getElem d c hc]

lemma take_sum_mono (d : List Nat) {i j : Nat} (h : i ≤ j) :
    (d.take i).sum ≤ (d.take j).sum := by
  have hj : j = i + (j - i) := by omega
  rw [hj, List.take_add, List.sum_append]
  omega

lemma take_sum_le (d : List Nat) (i : Nat) : (d.take i).sum ≤ d.sum := by
  conv_rhs => rw [← List.take_append_drop i d]
  rw [List.sum_append]
  omega

/-- Distinct (city, in-slice index) pairs occupy distinct flat positions. -/
lemma slot_inj (d : List Nat) {c1 c2 i1 i2 : Nat} (hc1 : c1 < d.length) (hc2 : c2 < d.length)
    (hi1 : i1 < d.getD c1 0) (hi2 : i2 < d.getD c2 0)
    (heq : (d.take c1).sum + i1 = (d.take c2).sum + i2) : c1 = c2 ∧ i1 = i2 := by
  rcases Nat.lt_trichotomy c1 c2 with h | h | h
  · exfalso
    have h1 : (d.take (c1 + 1)).sum ≤ (d.take c2).sum := take_sum_mono d (by omega)
    have h2 := take_sum_succ d c1 hc1
    omega
  · refine ⟨h, ?_⟩
    rw [h] at heq
    omega
  · exfalso
    have h1 : (d.take (c2 + 1)).sum ≤ (d.take c1).sum := take_sum_mono d (by omega)
    have h2 := take_sum_succ d c2 hc2
    omega

lemma add_railway_getD (nb : List (List Nat)) (x y : Nat) (hx : x < nb.length)
    (hy : y < nb.length) (hxy : x ≠ y) :
    (graph_add_railway nb x y).getD x [] = nb.getD x [] ++ [y] ∧
    (graph_add_railway nb x y).getD y [] = nb.getD y [] ++ [x] ∧
    (∀ c, c ≠ x → c ≠ y → (graph_add_railway nb x y).getD c [] = nb.getD c []) ∧
    (graph_add_railway nb x y).length = nb.length := by
  unfold graph_add_railway
  refine ⟨?_, ?_, ?_, ?_⟩
  · rw [getD_set_ne _ _ _ (fun h => hxy h.symm), getD_set_self nb _ [] hx]
  · rw [getD_set_self _ _ []
      (by rw [List.length_set]; exact hy), getD_set_ne nb _ [] hxy]
  · intro c hcx hcy
    rw [getD_set_ne _ _ _ (fun h => hcy h.symm), getD_set_ne nb _ [] (fun h => hcx h.symm)]
  · rw [List.length_set, List.length_set]

/-- Membership in the adjacency lists built by folding `graph_add_railway`. -/
lemma foldl_railway_mem :
    ∀ (items : List (Nat × Nat)) (nb : List (List Nat)),
      (∀ it ∈ items, it.1 < nb.length ∧ it.2 < nb.length ∧ it.1 ≠ it.2) →
      ((items.foldl (fun nb it => graph_add_railway nb it.1 it.2) nb).length = nb.length ∧
       ∀ a b, b ∈ (items.foldl (fun nb it => graph_add_railway nb it.1 it.2) nb).getD a [] ↔
         (b ∈ nb.getD a [] ∨ ∃ it ∈ items, (a = it.1 ∧ b = it.2) ∨ (a = it.2 ∧ b = it.1))) := by
  intro items
  induction items with
  | nil =>
    intro nb _
    refine ⟨rfl, fun a b => ?_⟩
    simp
  | cons it items ih =>
    intro nb hin
    have hit := hin it (List.mem_cons_self it items)
    obtain ⟨hgx, hgy, hgo, hglen⟩ := add_railway_getD nb it.1 it.2 hit.1 hit.2.1 hit.2.2
    have hin' : ∀ jt ∈ items, jt.1 < (graph_add_railway nb it.1 it.2).length ∧
        jt.2 < (graph_add_railway nb it.1 it.2).length ∧ jt.1 ≠ jt.2 := by
      intro jt hjt
      rw [hglen]
      exact hin jt (List.mem_cons_of_mem it hjt)
    obtain ⟨ihl, ihm⟩ := ih (graph_add_railway nb it.1 it.2) hin'
    refine ⟨by rw [List.foldl_cons, ihl, hglen], fun a b => ?_⟩
    show b ∈ (items.foldl _ (graph_add_railway nb it.1 it.2)).getD a [] ↔ _
    rw [ihm a b]
    constructor
    · rintro (hb | ⟨jt, hjt, hcase⟩)
      · by_cases hax : a = it.1
        · subst hax
          rw [hgx] at hb
          rcases List.mem_append.mp hb with hb | hb
          · exact Or.inl hb
          · rw [List.mem_singleton] at hb
            exact Or.inr ⟨it, List.mem_cons_self it items, Or.inl ⟨rfl, hb⟩⟩
        · by_cases hay : a = it.2
          · subst hay
            rw [hgy] at hb
            rcases List.mem_append.mp hb with hb | hb
            · exact Or.inl hb
            · rw [List.mem_singleton] at hb
              exact Or.inr ⟨it, List.mem_cons_self it items, Or.inr ⟨rfl, hb⟩⟩
          · rw [hgo a hax hay] at hb
            exact Or.inl hb
      · exact Or.inr ⟨jt, List.mem_cons_of_mem it hjt, hcase⟩
    · rintro (hb | ⟨jt, hjt, hcase⟩)
      · left
        by_cases hax : a = it.1
        · subst hax
          rw [hgx]
          exact List.mem_append_left _ hb
        · by_cases hay : a = it.2
          · subst hay
            rw [hgy]
            exact List.mem_append_left _ hb
          · rw [hgo a hax hay]
            exact hb
      · rcases List.mem_cons.mp hjt with hjt | hjt
        · subst hjt
          rcases hcase with ⟨ha, hb⟩ | ⟨ha, hb⟩
          · subst ha
            subst hb
            left
            rw [hgx]
            exact List.mem_append_right _ (List.mem_singleton.mpr rfl)
          · subst ha
            subst hb
            left
            rw [hgy]
            exact List.mem_append_right _ (List.mem_singleton.mpr rfl)
        · exact Or.inr ⟨jt, hjt, hcase⟩

lemma incCount_cons (it : Nat × Nat) (R : List (Nat × Nat)) (c : Nat) :
    incCount (it :: R) c
      = incCount R c + (if it.1 = c then 1 else 0) + (if it.2 = c then 1 else 0) := by
  unfold incCount
  rw [List.countP_cons, List.countP_cons]
  by_cases h1 : it.1 = c <;> by_cases h2 : it.2 = c <;> simp [h1, h2] <;> omega

/-- One insertion of the second pass mirrors one reference append: the
cursor of each endpoint advances past the freshly written cell, and all
established cells survive because distinct (city, slot) pairs sit at
distinct flat positions. -/
lemma fill_invariant (n : Nat) (deg : List Nat) (hdlen : deg.length = n + 2) :
    ∀ (R : List (Nat × Nat)) (arr cur : List Nat) (ref : List (List Nat)),
      cur.length = n + 2 → ref.length = n + 2 → arr.length = deg.sum →
      (∀ it ∈ R, it.1 < n + 2 ∧ it.2 < n + 2 ∧ it.1 ≠ it.2) →
      (∀ c, c < n + 2 → cur.getD c 0 = (ref.getD c []).length) →
      (∀ c, c < n + 2 → (ref.getD c []).length + incCount R c = deg.getD c 0) →
      (∀ c, c < n + 2 → ∀ i, i < (ref.getD c []).length →
          arr.getD ((deg.take c).sum + i) 0 = (ref.getD c []).getD i 0) →
      ((R.foldl (fun st it => addPair (offsets deg) st it.1 it.2) (arr, cur)).2.length = n + 2 ∧
       (R.foldl (fun nb it => graph_add_railway nb it.1 it.2) ref).length = n + 2 ∧
       (R.foldl (fun st it => addPair (offsets deg) st it.1 it.2) (arr, cur)).1.length = deg.sum ∧
       (∀ c, c < n + 2 →
          (R.foldl (fun st it => addPair (offsets deg) st it.1 it.2) (arr, cur)).2.getD c 0
            = ((R.foldl (fun nb it => graph_add_railway nb it.1 it.2) ref).getD c []).length) ∧
       (∀ c, c < n + 2 →
          ∀ i, i < ((R.foldl (fun nb it => graph_add_railway nb it.1 it.2) ref).getD c []).length →
          (R.foldl (fun st it => addPair (offsets deg) st it.1 it.2) (arr, cur)).1.getD
              ((deg.take c).sum + i) 0
            = ((R.foldl (fun nb it => graph_add_railway nb it.1 it.2) ref).getD c []).getD i 0) ∧
       (∀ c, c < n + 2 →
          ((R.foldl (fun nb it => graph_add_railway nb it.1 it.2) ref).getD c []).length
            = deg.getD c 0)) := by
  intro R
  induction R with
  | nil =>
    intro arr cur ref hclen hreflen halen _ hcur hcount hcontent
    refine ⟨hclen, hreflen, halen, hcur, hcontent, ?_⟩
    intro c hc
    have h := hcount c hc
    have hz : incCount [] c = 0 := rfl
    show (ref.getD c []).length = deg.getD c 0
    omega
  | cons it R ihr =>
    intro arr cur ref hclen hreflen halen hrange hcur hcount hcontent
    have hit := hrange it (List.mem_cons_self it R)
    have hx : it.1 < n + 2 := hit.1
    have hy : it.2 < n + 2 := hit.2.1
    have hxy : it.1 ≠ it.2 := hit.2.2
    -- the slots being written
    have hkx : cur.getD it.1 0 = (ref.getD it.1 []).length := hcur it.1 hx
    have hky : cur.getD it.2 0 = (ref.getD it.2 []).length := hcur it.2 hy
    have hkx_lt : (ref.getD it.1 []).length < deg.getD it.1 0 := by
      have := hcount it.1 hx
      rw [incCount_cons] at this
      rw [if_pos rfl] at this
      omega
    have hky_lt : (ref.getD it.2 []).length < deg.getD it.2 0 := by
      have := hcount it.2 hy
      rw [incCount_cons] at this
      rw [if_pos rfl] at this
      omega
    have hsx : (offsets deg).getD it.1 0 = (deg.take it.1).sum := offsets_getD deg it.1 (by omega)
    have hsy : (offsets deg).getD it.2 0 = (deg.take it.2).sum := offsets_getD deg it.2 (by omega)
    have hposx : (deg.take it.1).sum + (ref.getD it.1 []).length < deg.sum := by
      have h1 := take_sum_succ deg it.1 (by omega)
      have h2 := take_sum_le deg (it.1 + 1)
      omega
    have hposy : (deg.take it.2).sum + (ref.getD it.2 []).length < deg.sum := by
      have h1 := take_sum_succ deg it.2 (by omega)
      have h2 := take_sum_le deg (it.2 + 1)
      omega
    have hianeib : (deg.take it.1).sum + (ref.getD it.1 []).length
        ≠ (deg.take it.2).sum + (ref.getD it.2 []).length := by
      intro h
      exact hxy (slot_inj deg (by omega) (by omega) hkx_lt hky_lt h).1
    obtain ⟨hgx, hgy, hgo, hglen⟩ := add_railway_getD ref it.1 it.2 (by omega) (by omega) hxy
    -- the one-step state
    have hstep : addPair (offsets deg) (arr, cur) it.1 it.2
        = ((arr.set ((deg.take it.1).sum + (ref.getD it.1 []).length) it.2).set
             ((deg.take it.2).sum + (ref.getD it.2 []).length) it.1,
           bump (bump cur it.1) it.2) := by
      unfold addPair
      rw [hsx, hsy]
      dsimp only
      rw [hkx, hky]
    rw [List.foldl_cons, List.foldl_cons, hstep]
    apply ihr
    · rw [bump_length, bump_length]
      exact hclen
    · rw [hglen]
      exact hreflen
    · rw [List.length_set, List.length_set]
      exact halen
    · intro jt hjt
      exact hrange jt (List.mem_cons_of_mem it hjt)
    · intro c hc
      rw [bump_getD _ _ _ (by rw [bump_length]; omega), bump_getD _ _ _ (by omega)]
      by_cases hcx : c = it.1
      · subst hcx
        rw [if_pos rfl, if_neg (fun h => hxy h.symm), hgx, List.length_append]
        rw [hkx]
        rfl
      · by_cases hcy : c = it.2
        · subst hcy
          rw [if_neg (fun h => hcx h.symm), if_pos rfl, hgy, List.length_append]
          rw [hky]
          rfl
        · rw [if_neg (fun h => hcx h.symm), if_neg (fun h => hcy h.symm),
            hgo c hcx hcy, hcur c hc]
          omega
    · intro c hc
      have := hcount c hc
      rw [incCount_cons] at this
      by_cases hcx : c = it.1
      · subst hcx
        rw [hgx, List.length_append]
        rw [if_pos rfl] at this
        rw [if_neg (fun h => hxy h.symm)] at this
        simp only [List.length_singleton]
        omega
      · rw [if_neg (fun h => hcx h.symm)] at this
        by_cases hcy : c = it.2
        · subst hcy
          rw [hgy, List.length_append]
          rw [if_pos rfl] at this
          simp only [List.length_singleton]
          omega
        · rw [if_neg (fun h => hcy h.symm)] at this
          rw [hgo c hcx hcy]
          omega
    · intro c hc i hi
      by_cases hcx : c = it.1
      · subst hcx
        rw [hgx] at hi ⊢
        rw [List.length_append, List.length_singleton] at hi
        by_cases hik : i < (ref.getD it.1 []).length
        · -- established cell of the expanded city
          rw [List.getD_append _ _ _ _ hik]
          rw [getD_set_ne _ _ _ (by
            intro h
            have := slot_inj deg (show it.2 < deg.length by omega)
              (show it.1 < deg.length by omega) hky_lt (by omega) h
            exact hxy this.1.symm)]
          rw [getD_set_ne _ _ _ (by
            intro h
            have := slot_inj deg (show it.1 < deg.length by omega)
              (show it.1 < deg.length by omega) hkx_lt (by omega) h
            omega)]
          exact hcontent it.1 hc i hik
        · -- the freshly written cell
          have hieq : i = (ref.getD it.1 []).length := by omega
          subst hieq
          rw [List.getD_append_right _ _ _ _ (le_refl _)]
          rw [Nat.sub_self]
          rw [getD_set_ne _ _ _ (fun h => hianeib h.symm)]
          rw [getD_set_self _ _ _ (by rw [halen]; exact hposx)]
          rfl
      · by_cases hcy : c = it.2
        · subst hcy
          rw [hgy] at hi ⊢
          rw [List.length_append, List.length_singleton] at hi
          by_cases hik : i < (ref.getD it.2 []).length
          · rw [List.getD_append _ _ _ _ hik]
            rw [getD_set_ne _ _ _ (by
              intro h
              have := slot_inj deg (show it.2 < deg.length by omega)
                (show it.2 < deg.length by omega) hky_lt (by omega) h
              omega)]
            rw [getD_set_ne _ _ _ (by
              intro h
              have := slot_inj deg (show it.1 < deg.length by omega)
                (show it.2 < deg.length by omega) hkx_lt (by omega) h
              exact hxy this.1)]
            exact hcontent it.2 hc i hik
          · have hieq : i = (ref.getD it.2 []).length := by omega
            subst hieq
            rw [List.getD_append_right _ _ _ _ (le_refl _)]
            rw [Nat.sub_self]
            rw [getD_set_self _ _ _ (by rw [List.length_set, halen]; exact hposy)]
            rfl
        · rw [hgo c hcx hcy] at hi ⊢
          rw [getD_set_ne _ _ _ (by
            intro h
            have := slot_inj deg (show it.2 < deg.length by omega)
              (show c < deg.length by omega) hky_lt
              (by
                have := hcount c hc
                omega) h
            exact hcy this.1.symm)]
          rw [getD_set_ne _ _ _ (by
            intro h
            have := slot_inj deg (show it.1 < deg.length by omega)
              (show c < deg.length by omega) hkx_lt
              (by
                have := hcount c hc
                omega) h
            exact hcx this.1.symm)]
          exact hcontent c hc i hi

lemma getD_eq_getElem' {α : Type} (l : List α) (d : α) (c : Nat) (hc : c < l.length) :
    l.getD c d = l[c] := by
  rw [List.getD_eq_getElem?_getD, List.getElem?_eq_getElem hc]
  rfl

lemma getD_replicate {α : Type} (x d : α) (m c : Nat) :
    (List.replicate m x).getD c d = if c < m then x else d := by
  rw [List.getD_eq_getElem?_getD, List.getElem?_replicate]
  by_cases h : c < m
  · rw [if_pos h, if_pos h]
    rfl
  · rw [if_neg h, if_neg h]
    rfl

lemma drop_take_eq_of_getD (arr : List Nat) (k L : Nat) (l : List Nat)
    (hlen : k + L ≤ arr.length) (hL : l.length = L)
    (h : ∀ i, i < L → arr.getD (k + i) 0 = l.getD i 0) :
    (arr.drop k).take L = l := by
  apply List.ext_getElem
  · rw [List.length_take, List.length_drop]
    omega
  · intro i h1 h2
    rw [List.getElem_take, List.getElem_drop]
    have hi : i < L := by
      rw [List.length_take, List.length_drop] at h1
      omega
    have := h i hi
    rw [getD_eq_getElem arr _ (by omega), getD_eq_getElem l _ (by omega)] at this
    exact this

/-- The flat two-pass build yields exactly the reference append-based
adjacency lists. -/
theorem buildMainC_eq_buildRef (n : Nat) (airports : List Nat) (edges : List (Nat × Nat))
    (hap : ∀ c ∈ airports, 1 ≤ c ∧ c ≤ n)
    (hed : ∀ e ∈ edges, 1 ≤ e.1 ∧ e.1 ≤ n ∧ 1 ≤ e.2 ∧ e.2 ≤ n ∧ e.1 ≠ e.2) :
    buildMainC n airports edges = buildRef n airports edges := by
  obtain ⟨hdg, hdlen⟩ := degreesPass_spec n airports edges hap
    (fun e he => ⟨(hed e he).1, (hed e he).2.1, (hed e he).2.2.1, (hed e he).2.2.2.1⟩)
  have hitems : ∀ it ∈ itemsOf airports edges, it.1 < n + 2 ∧ it.2 < n + 2 ∧ it.1 ≠ it.2 := by
    intro it hit
    rcases List.mem_append.mp hit with h | h
    · have := hed it h
      refine ⟨by omega, by omega, this.2.2.2.2⟩
    · obtain ⟨c, hc, hceq⟩ := List.mem_map.mp h
      have := hap c hc
      rw [← hceq]
      exact ⟨by omega, by omega, by omega⟩
  have hfill := fill_invariant n (degreesPass n airports edges) hdlen
    (itemsOf airports edges)
    (List.replicate (degreesPass n airports edges).sum 0)
    (List.replicate (n + 2) 0)
    (List.replicate (n + 2) [])
    (List.length_replicate _ _) (List.length_replicate _ _) (List.length_replicate _ _)
    hitems
    (by
      intro c hc
      rw [getD_replicate, getD_replicate]
      rw [if_pos hc, if_pos hc]
      rfl)
    (by
      intro c hc
      rw [getD_replicate, if_pos hc, hdg c]
      show 0 + incCount (itemsOf airports edges) c = incCount (itemsOf airports edges) c
      omega)
    (by
      intro c hc i hi
      rw [getD_replicate, if_pos hc] at hi
      exact absurd hi (by simp))
  obtain ⟨hflen2, hfreflen, hflen1, hfcur, hfcontent, hfdeg⟩ := hfill
  -- the two folds of `main` are the single fold over the item list
  have hfold : (itemsOf airports edges).foldl
        (fun st it => addPair (offsets (degreesPass n airports edges)) st it.1 it.2)
        (List.replicate (degreesPass n airports edges).sum 0, List.replicate (n + 2) 0)
      = airports.foldl (fun st a => addPair (offsets (degreesPass n airports edges)) st 0 a)
          (edges.foldl (fun st e => addPair (offsets (degreesPass n airports edges)) st e.1 e.2)
            (List.replicate (degreesPass n airports edges).sum 0, List.replicate (n + 2) 0)) := by
    unfold itemsOf
    rw [List.foldl_append, List.foldl_map]
  unfold buildMainC buildRef
  dsimp only
  congr 1
  rw [← hfold]
  apply List.ext_getElem
  · rw [List.length_map, List.length_range, List.length_take, hfreflen]
    omega
  · intro c h1 h2
    rw [List.length_map, List.length_range] at h1
    have hc2 : c < n + 2 := by omega
    rw [List.getElem_take, List.getElem_map, List.getElem_range]
    rw [← getD_eq_getElem' _ ([] : List Nat) c (by rw [hfreflen]; omega)]
    rw [offsets_getD _ c (by omega), hfcur c hc2]
    apply drop_take_eq_of_getD
    · rw [hflen1, hfdeg c hc2]
      have h1 := take_sum_succ (degreesPass n airports edges) c (by omega)
      have h2 := take_sum_le (degreesPass n airports edges) (c + 1)
      omega
    · rfl
    · intro i hi
      exact hfcontent c hc2 i hi

lemma getD_take {α : Type} (l : List α) (k a : Nat) (d : α) (ha : a < k) :
    (l.take k).getD a d = l.getD a d := by
  rw [List.getD_eq_getElem?_getD, List.getD_eq_getElem?_getD]
  congr 1
  exact List.getElem?_take_of_lt ha

lemma WF_of_adj (g : Graph) (hlen : g.nbrs.length = g.size)
    (h : ∀ a, a < g.size → ∀ b, b ∈ g.adj a → b < g.size) : g.WF := by
  refine ⟨hlen, ?_⟩
  intro l hl b hb
  obtain ⟨a, ha, hla⟩ := List.mem_iff_getElem.mp hl
  have hadj : g.adj a = l := by
    show g.nbrs.getD a [] = l
    rw [getD_eq_getElem' g.nbrs ([] : List Nat) a ha]
    exact hla
  exact h a (by omega) b (hadj.symm ▸ hb)

/-- The insertion items of the dynamic-list build, in program order: one
`(city - 1, n)` railway per airport first, then every route with both
endpoints shifted down by one. -/
def items2Of (n : Nat) (airports : List Nat) (edges : List (Nat × Nat)) : List (Nat × Nat) :=
  airports.map (fun c => (c - 1, n)) ++ edges.map (fun e => (e.1 - 1, e.2 - 1))

lemma buildPart000_foldl (n : Nat) (airports : List Nat) (edges : List (Nat × Nat)) :
    (buildPart000 n airports edges).nbrs
      = (items2Of n airports edges).foldl (fun nb it => graph_add_railway nb it.1 it.2)
          (List.replicate (n + 1) []) := by
  unfold buildPart000 items2Of
  rw [List.foldl_append, List.foldl_map, List.foldl_map]

lemma adjPart_iff (n : Nat) (airports : List Nat) (edges : List (Nat × Nat))
    (hap : ∀ c ∈ airports, 1 ≤ c ∧ c ≤ n)
    (hed : ∀ e ∈ edges, 1 ≤ e.1 ∧ e.1 ≤ n ∧ 1 ≤ e.2 ∧ e.2 ≤ n ∧ e.1 ≠ e.2)
    (a b : Nat) :
    b ∈ (buildPart000 n airports edges).adj a ↔
      ∃ it ∈ items2Of n airports edges, (a = it.1 ∧ b = it.2) ∨ (a = it.2 ∧ b = it.1) := by
  have hitems : ∀ it ∈ items2Of n airports edges,
      it.1 < (List.replicate (n + 1) ([] : List Nat)).length ∧
      it.2 < (List.replicate (n + 1) ([] : List Nat)).length ∧ it.1 ≠ it.2 := by
    intro it hit
    rw [List.length_replicate]
    rcases List.mem_append.mp hit with h | h
    · obtain ⟨c, hc, hceq⟩ := List.mem_map.mp h
      have := hap c hc
      rw [← hceq]
      exact ⟨by omega, by omega, by omega⟩
    · obtain ⟨e, he, heq⟩ := List.mem_map.mp h
      have := hed e he
      rw [← heq]
      exact ⟨by omega, by omega, by omega⟩
  have hm := (foldl_railway_mem (items2Of n airports edges)
      (List.replicate (n + 1) []) hitems).2 a b
  show b ∈ (buildPart000 n airports edges).nbrs.getD a [] ↔ _
  rw [buildPart000_foldl, hm, getD_replicate]
  constructor
  · rintro (hbase | h)
    · split at hbase <;> exact absurd hbase (List.not_mem_nil b)
    · exact h
  · exact Or.inr

lemma adjRef_iff (n : Nat) (airports : List Nat) (edges : List (Nat × Nat))
    (hap : ∀ c ∈ airports, 1 ≤ c ∧ c ≤ n)
    (hed : ∀ e ∈ edges, 1 ≤ e.1 ∧ e.1 ≤ n ∧ 1 ≤ e.2 ∧ e.2 ≤ n ∧ e.1 ≠ e.2)
    (a b : Nat) (ha : a < n + 1) :
    b ∈ (buildRef n airports edges).adj a ↔
      ∃ it ∈ itemsOf airports edges, (a = it.1 ∧ b = it.2) ∨ (a = it.2 ∧ b = it.1) := by
  have hitems : ∀ it ∈ itemsOf airports edges,
      it.1 < (List.replicate (n + 2) ([] : List Nat)).length ∧
      it.2 < (List.replicate (n + 2) ([] : List Nat)).length ∧ it.1 ≠ it.2 := by
    intro it hit
    rw [List.length_replicate]
    rcases List.mem_append.mp hit with h | h
    · have := hed it h
      exact ⟨by omega, by omega, this.2.2.2.2⟩
    · obtain ⟨c, hc, hceq⟩ := List.mem_map.mp h
      have := hap c hc
      rw [← hceq]
      exact ⟨by omega, by omega, by omega⟩
  have hm := (foldl_railway_mem (itemsOf airports edges)
      (List.replicate (n + 2) []) hitems).2 a b
  show b ∈ (buildRef n airports edges).nbrs.getD a [] ↔ _
  unfold buildRef
  dsimp only
  rw [getD_take _ _ _ _ ha, hm, getD_replicate]
  constructor
  · rintro (hbase | h)
    · split at hbase <;> exact absurd hbase (List.not_mem_nil b)
    · exact h
  · exact Or.inr

lemma buildRef_WF (n : Nat) (airports : List Nat) (edges : List (Nat × Nat))
    (hap : ∀ c ∈ airports, 1 ≤ c ∧ c ≤ n)
    (hed : ∀ e ∈ edges, 1 ≤ e.1 ∧ e.1 ≤ n ∧ 1 ≤ e.2 ∧ e.2 ≤ n ∧ e.1 ≠ e.2) :
    (buildRef n airports edges).WF := by
  have hitems : ∀ it ∈ itemsOf airports edges,
      it.1 < (List.replicate (n + 2) ([] : List Nat)).length ∧
      it.2 < (List.replicate (n + 2) ([] : List Nat)).length ∧ it.1 ≠ it.2 := by
    intro it hit
    rw [List.length_replicate]
    rcases List.mem_append.mp hit with h | h
    · have := hed it h
      exact ⟨by omega, by omega, this.2.2.2.2⟩
    · obtain ⟨c, hc, hceq⟩ := List.mem_map.mp h
      have := hap c hc
      rw [← hceq]
      exact ⟨by omega, by omega, by omega⟩
  have hflen := (foldl_railway_mem (itemsOf airports edges)
      (List.replicate (n + 2) []) hitems).1
  rw [List.length_replicate] at hflen
  apply WF_of_adj
  · show (buildRef n airports edges).nbrs.length = n + 1
    unfold buildRef
    dsimp only
    rw [List.length_take, hflen]
    omega
  · intro a ha b hb
    rw [adjRef_iff n airports edges hap hed a b ha] at hb
    obtain ⟨it, hit, hcase⟩ := hb
    rcases List.mem_append.mp hit with h | h
    · have := hed it h
      show b < n + 1
      rcases hcase with ⟨_, h2⟩ | ⟨_, h2⟩ <;> omega
    · obtain ⟨c, hc, hceq⟩ := List.mem_map.mp h
      have := hap c hc
      rw [← hceq] at hcase
      show b < n + 1
      rcases hcase with ⟨_, h2⟩ | ⟨_, h2⟩ <;> omega

lemma buildPart000_WF (n : Nat) (airports : List Nat) (edges : List (Nat × Nat))
    (hap : ∀ c ∈ airports, 1 ≤ c ∧ c ≤ n)
    (hed : ∀ e ∈ edges, 1 ≤ e.1 ∧ e.1 ≤ n ∧ 1 ≤ e.2 ∧ e.2 ≤ n ∧ e.1 ≠ e.2) :
    (buildPart000 n airports edges).WF := by
  have hitems : ∀ it ∈ items2Of n airports edges,
      it.1 < (List.replicate (n + 1) ([] : List Nat)).length ∧
      it.2 < (List.replicate (n + 1) ([] : List Nat)).length ∧ it.1 ≠ it.2 := by
    intro it hit
    rw [List.length_replicate]
    rcases List.mem_append.mp hit with h | h
    · obtain ⟨c, hc, hceq⟩ := List.mem_map.mp h
      have := hap c hc
      rw [← hceq]
      exact ⟨by omega, by omega, by omega⟩
    · obtain ⟨e, he, heq⟩ := List.mem_map.mp h
      have := hed e he
      rw [← heq]
      exact ⟨by omega, by omega, by omega⟩
  have hflen := (foldl_railway_mem (items2Of n airports edges)
      (List.replicate (n + 1) []) hitems).1
  rw [List.length_replicate] at hflen
  apply WF_of_adj
  · show (buildPart000 n airports edges).nbrs.length = n + 1
    rw [buildPart000_foldl]
    exact hflen
  · intro a _ b hb
    rw [adjPart_iff n airports edges hap hed a b] at hb
    obtain ⟨it, hit, hcase⟩ := hb
    rcases List.mem_append.mp hit with h | h
    · obtain ⟨c, hc, hceq⟩ := List.mem_map.mp h
      have := hap c hc
      rw [← hceq] at hcase
      show b < n + 1
      rcases hcase with ⟨_, h2⟩ | ⟨_, h2⟩ <;> omega
    · obtain ⟨e, he, heq⟩ := List.mem_map.mp h
      have := hed e he
      rw [← heq] at hcase
      show b < n + 1
      rcases hcase with ⟨_, h2⟩ | ⟨_, h2⟩ <;> omega

/-- The relabelling between the two builds: hub `0` of the flat build
becomes `n`, every real city `a` becomes `a - 1`. -/
def sigmaShift (n a : Nat) : Nat :=
  if a = 0 then n else a - 1

lemma sigmaShift_lt (n a : Nat) (ha : a < n + 1) : sigmaShift n a < n + 1 := by
  unfold sigmaShift
  split <;> omega

lemma sigmaShift_inj (n a b : Nat) (ha : a < n + 1) (hb : b < n + 1)
    (h : sigmaShift n a = sigmaShift n b) : a = b := by
  unfold sigmaShift at h
  split at h <;> split at h <;> omega

lemma sigmaShift_surj (n q : Nat) (hq : q < n + 1) :
    ∃ p, p < n + 1 ∧ sigmaShift n p = q := by
  by_cases h : q = n
  · exact ⟨0, by omega, by unfold sigmaShift; rw [if_pos rfl]; omega⟩
  · refine ⟨q + 1, by omega, ?_⟩
    unfold sigmaShift
    rw [if_neg (by omega)]
    omega

lemma sigmaShift_pos (n a : Nat) (ha : 1 ≤ a) : sigmaShift n a = a - 1 := by
  unfold sigmaShift
  rw [if_neg (by omega)]

lemma adj_shift (n : Nat) (airports : List Nat) (edges : List (Nat × Nat))
    (hap : ∀ c ∈ airports, 1 ≤ c ∧ c ≤ n)
    (hed : ∀ e ∈ edges, 1 ≤ e.1 ∧ e.1 ≤ n ∧ 1 ≤ e.2 ∧ e.2 ≤ n ∧ e.1 ≠ e.2)
    (a b : Nat) (ha : a < n + 1) (hb : b < n + 1) :
    b ∈ (buildRef n airports edges).adj a ↔
      sigmaShift n b ∈ (buildPart000 n airports edges).adj (sigmaShift n a) := by
  rw [adjRef_iff n airports edges hap hed a b ha,
    adjPart_iff n airports edges hap hed (sigmaShift n a) (sigmaShift n b)]
  constructor
  · rintro ⟨it, hit, hcase⟩
    rcases List.mem_append.mp hit with h | h
    · refine ⟨(it.1 - 1, it.2 - 1),
        List.mem_append_right _ (List.mem_map.mpr ⟨it, h, rfl⟩), ?_⟩
      have he := hed it h
      rcases hcase with ⟨h1, h2⟩ | ⟨h1, h2⟩
      · left
        rw [h1, h2, sigmaShift_pos n it.1 (by omega), sigmaShift_pos n it.2 (by omega)]
        exact ⟨rfl, rfl⟩
      · right
        rw [h1, h2, sigmaShift_pos n it.1 (by omega), sigmaShift_pos n it.2 (by omega)]
        exact ⟨rfl, rfl⟩
    · obtain ⟨c, hc, hceq⟩ := List.mem_map.mp h
      have hcb := hap c hc
      rw [← hceq] at hcase
      refine ⟨(c - 1, n), List.mem_append_left _ (List.mem_map.mpr ⟨c, hc, rfl⟩), ?_⟩
      rcases hcase with ⟨h1, h2⟩ | ⟨h1, h2⟩
      · right
        rw [h1, h2, sigmaShift_pos n c (by omega)]
        exact ⟨by unfold sigmaShift; rw [if_pos rfl], rfl⟩
      · left
        rw [h1, h2, sigmaShift_pos n c (by omega)]
        exact ⟨rfl, by unfold sigmaShift; rw [if_pos rfl]⟩
  · rintro ⟨it2, hit2, hcase⟩
    rcases List.mem_append.mp hit2 with h | h
    · obtain ⟨c, hc, hceq⟩ := List.mem_map.mp h
      have hcb := hap c hc
      rw [← hceq] at hcase
      refine ⟨(0, c), List.mem_append_right _ (List.mem_map.mpr ⟨c, hc, rfl⟩), ?_⟩
      have hσc : sigmaShift n c = c - 1 := sigmaShift_pos n c (by omega)
      have hσ0 : sigmaShift n 0 = n := by unfold sigmaShift; rw [if_pos rfl]
      rcases hcase with ⟨h1, h2⟩ | ⟨h1, h2⟩
      · right
        constructor
        · exact sigmaShift_inj n a c ha (by omega) (by rw [h1, hσc])
        · exact sigmaShift_inj n b 0 hb (by omega) (by rw [h2, hσ0])
      · left
        constructor
        · exact sigmaShift_inj n a 0 ha (by omega) (by rw [h1, hσ0])
        · exact sigmaShift_inj n b c hb (by omega) (by rw [h2, hσc])
    · obtain ⟨e, he, heq⟩ := List.mem_map.mp h
      have heb := hed e he
      rw [← heq] at hcase
      refine ⟨e, List.mem_append_left _ he, ?_⟩
      have hσ1 : sigmaShift n e.1 = e.1 - 1 := sigmaShift_pos n e.1 (by omega)
      have hσ2 : sigmaShift n e.2 = e.2 - 1 := sigmaShift_pos n e.2 (by omega)
      rcases hcase with ⟨h1, h2⟩ | ⟨h1, h2⟩
      · left
        constructor
        · exact sigmaShift_inj n a e.1 ha (by omega) (by rw [h1, hσ1])
        · exact sigmaShift_inj n b e.2 hb (by omega) (by rw [h2, hσ2])
      · right
        constructor
        · exact sigmaShift_inj n a e.2 ha (by omega) (by rw [h1, hσ2])
        · exact sigmaShift_inj n b e.1 hb (by omega) (by rw [h2, hσ1])

lemma ball_relabel (g h : Graph) (σ : Nat → Nat) (hg : g.WF) (hh : h.WF)
    (hsz : h.size = g.size)
    (hσlt : ∀ a, a < g.size → σ a < g.size)
    (hinj : ∀ a b, a < g.size → b < g.size → σ a = σ b → a = b)
    (hsurj : ∀ q, q < g.size → ∃ p, p < g.size ∧ σ p = q)
    (hadj : ∀ a b, a < g.size → b < g.size → (b ∈ g.adj a ↔ σ b ∈ h.adj (σ a)))
    (s : Nat) (hs : s < g.size) :
    ∀ k c, c < g.size → (c ∈ ball g s k ↔ σ c ∈ ball h (σ s) k) := by
  intro k
  induction k with
  | zero =>
    intro c hc
    rw [mem_ball_zero, mem_ball_zero]
    constructor
    · intro hcs
      rw [hcs]
    · intro hcs
      exact hinj c s hc hs hcs
  | succ k ih =>
    intro c hc
    rw [mem_ball_succ, mem_ball_succ]
    constructor
    · rintro (hbase | ⟨p, hp, hcp⟩)
      · exact Or.inl ((ih c hc).mp hbase)
      · have hpsz : p < g.size :=
          Finset.mem_range.mp (ball_subset_range hg hs k hp)
        exact Or.inr ⟨σ p, (ih p hpsz).mp hp, (hadj p c hpsz hc).mp hcp⟩
    · rintro (hbase | ⟨q, hq, hcq⟩)
      · exact Or.inl ((ih c hc).mpr hbase)
      · have hqsz : q < g.size := by
          have := Finset.mem_range.mp
            (ball_subset_range hh (hsz ▸ hσlt s hs) k hq)
          omega
        obtain ⟨p, hpsz, hpq⟩ := hsurj q hqsz
        rw [← hpq] at hq hcq
        exact Or.inr ⟨p, (ih p hpsz).mpr hq, (hadj p c hpsz hc).mpr hcq⟩

lemma distB_relabel (g h : Graph) (σ : Nat → Nat) (hg : g.WF) (hh : h.WF)
    (hsz : h.size = g.size)
    (hσlt : ∀ a, a < g.size → σ a < g.size)
    (hinj : ∀ a b, a < g.size → b < g.size → σ a = σ b → a = b)
    (hsurj : ∀ q, q < g.size → ∃ p, p < g.size ∧ σ p = q)
    (hadj : ∀ a b, a < g.size → b < g.size → (b ∈ g.adj a ↔ σ b ∈ h.adj (σ a)))
    (s t : Nat) (hs : s < g.size) (ht : t < g.size) :
    distB g s t = distB h (σ s) (σ t) := by
  unfold distB
  rw [hsz]
  apply find?_congr
  intro k _
  have hiff := ball_relabel g h σ hg hh hsz hσlt hinj hsurj hadj s hs k t ht
  by_cases hmem : t ∈ ball g s k
  · rw [decide_eq_true hmem, decide_eq_true (hiff.mp hmem)]
  · rw [decide_eq_false hmem, decide_eq_false (fun h' => hmem (hiff.mpr h'))]

/-- C2: on every well-formed scanned input (source, destination and all
airports and route endpoints are real cities in `1..n`, routes join two
distinct cities), the flat two-pass program and the dynamic-list program
print the same string. -/
theorem claim_C2_mains_agree (n s t : Nat) (airports : List Nat) (edges : List (Nat × Nat))
    (hs : 1 ≤ s ∧ s ≤ n) (ht : 1 ≤ t ∧ t ≤ n)
    (hap : ∀ c ∈ airports, 1 ≤ c ∧ c ≤ n)
    (hed : ∀ e ∈ edges, 1 ≤ e.1 ∧ e.1 ≤ n ∧ 1 ≤ e.2 ∧ e.2 ≤ n ∧ e.1 ≠ e.2) :
    mainC n s t airports edges = mainD n s t airports edges := by
  have hRwf := buildRef_WF n airports edges hap hed
  have hPwf := buildPart000_WF n airports edges hap hed
  unfold mainC mainD
  congr 1
  rw [buildMainC_eq_buildRef n airports edges hap hed]
  rw [solve_eq_expected _ s t hRwf (show s < n + 1 by omega)]
  rw [solve_eq_expected _ (s - 1) (t - 1) hPwf (show s - 1 < n + 1 by omega)]
  unfold expected
  have hd := distB_relabel (buildRef n airports edges) (buildPart000 n airports edges)
    (sigmaShift n) hRwf hPwf rfl
    (fun a ha => sigmaShift_lt n a ha)
    (fun a b ha hb h => sigmaShift_inj n a b ha hb h)
    (fun q hq => sigmaShift_surj n q hq)
    (fun a b ha hb => adj_shift n airports edges hap hed a b ha hb)
    s t (show s < n + 1 by omega) (show t < n + 1 by omega)
  rw [hd, sigmaShift_pos n s (by omega), sigmaShift_pos n t (by omega)]

/-- Witness for C2 on a concrete input with an airport pair and a route. -/
theorem claim_C2_witness :
    (∀ c ∈ [1, 2], 1 ≤ c ∧ c ≤ 3) ∧
      (∀ e ∈ [(2, 3)], 1 ≤ e.1 ∧ e.1 ≤ 3 ∧ 1 ≤ e.2 ∧ e.2 ≤ 3 ∧ e.1 ≠ e.2) ∧
      mainC 3 1 2 [1, 2] [(2, 3)] = mainD 3 1 2 [1, 2] [(2, 3)] :=
  ⟨by decide, by decide,
    claim_C2_mains_agree 3 1 2 [1, 2] [(2, 3)] (by decide) (by decide) (by decide) (by decide)⟩
